import Mathlib

/-!
Verification development for the predictive-caching engine of the
Computer-Network-Omnet-Project repository.

The development shallowly embeds the two data structures the specification
is about:

1. PatternTable (PatternTable.h / PatternTable implementation file): an
   STL-map based learner mapping (fromPage, toPage) to a count, with a
   memoized prediction cache.  C++ std::map objects are modelled as
   association lists with unique keys; iteration order of the transition
   map is irrelevant to every property proved here (sums, memberships and
   an explicit probability sort are all order independent), so insertion
   position is not tracked for that map.  C++ int is modelled as
   unbounded Int (no arithmetic here approaches 2^31), double arithmetic
   on probabilities is modelled exactly over Rat, and the
   static_cast<int>(double) truncation is modelled by truncated division.

2. The HTTP server response cache (HttpServer.cc: checkResponseCache,
   cleanupExpiredCache, evictLeastRecentlyUsed, addToCacheWithManagement,
   together with CacheEntry.cc).  Here iteration order of the std::map
   does matter (the LRU scan takes the first minimum in key order), so
   the map is modelled as an association list kept sorted by key.  Page
   name keys (std::string under lexicographic order) are abstracted to
   Nat with its order; simulation time (omnetpp simtime_t, a fixed point
   number) is modelled as Rat.

The self-message machinery for scheduled cache expiry (cacheExpiryMessages,
scheduleCacheExpiry) only cancels or schedules simulation events and never
changes the observable cache contents of the operations modelled here, so
it is omitted from the state.
-/

/-! ## Association-list primitives modelling std::map -/

/-- Lookup in an association list: the model of std::map::find. -/
def mapFind? {K V : Type} [DecidableEq K] (k : K) : List (K × V) → Option V
  | [] => none
  | e :: rest => if e.1 = k then some e.2 else mapFind? k rest

/-- Model of m[k] += d on a std::map with default-constructed value 0:
if the key is present its value is incremented by d, otherwise the key is
inserted with value d. -/
def mapAdd {K : Type} [DecidableEq K] (k : K) (d : Int) : List (K × Int) → List (K × Int)
  | [] => [(k, d)]
  | e :: rest => if e.1 = k then (e.1, e.2 + d) :: rest else e :: mapAdd k d rest

/-- Model of m[k] = v on a std::map: overwrite if present, insert otherwise. -/
def mapSet {K V : Type} [DecidableEq K] (k : K) (v : V) : List (K × V) → List (K × V)
  | [] => [(k, v)]
  | e :: rest => if e.1 = k then (k, v) :: rest else e :: mapSet k v rest

/-- Model of std::map::erase(key). -/
def mapErase {K V : Type} [DecidableEq K] (k : K) : List (K × V) → List (K × V)
  | [] => []
  | e :: rest => if e.1 = k then rest else e :: mapErase k rest

/-! ## PatternTable -/

/-- State of a PatternTable object (fields of the C++ class). -/
structure PatternTable where
  transitions : List ((Int × Int) × Int)
  predictions : List (Int × List Int)
  totalTransitions : Int
  confidenceThreshold : Rat
  maxPredictions : Int
  enableLearning : Bool
  totalUpdates : Int
  predictionRequests : Int
  successfulPredictions : Int
deriving DecidableEq

/-- Constructor PatternTable(threshold, maxPred). -/
def PatternTable.init (threshold : Rat) (maxPred : Int) : PatternTable :=
  { transitions := []
    predictions := []
    totalTransitions := 0
    confidenceThreshold := threshold
    maxPredictions := maxPred
    enableLearning := true
    totalUpdates := 0
    predictionRequests := 0
    successfulPredictions := 0 }

/-- PatternTable::isValidPage: non-negative page ids are valid. -/
def isValidPage (pageId : Int) : Bool := decide (0 ≤ pageId)

/-- PatternTable::recordTransition. -/
def PatternTable.recordTransition (pt : PatternTable) (fromPage toPage : Int) : PatternTable :=
  if pt.enableLearning = false ∨ isValidPage fromPage = false ∨ isValidPage toPage = false then
    pt
  else
    { pt with
      transitions := mapAdd (fromPage, toPage) 1 pt.transitions
      totalTransitions := pt.totalTransitions + 1
      totalUpdates := pt.totalUpdates + 1
      predictions := mapErase fromPage pt.predictions }

/-- PatternTable::recordSequence: records every consecutive pair. -/
def PatternTable.recordSequence (pt : PatternTable) (pageSequence : List Int) : PatternTable :=
  if pt.enableLearning = false ∨ pageSequence.length < 2 then pt
  else (pageSequence.zip pageSequence.tail).foldl
    (fun s p => s.recordTransition p.1 p.2) pt

/-- PatternTable::updatePattern: bulk increment, rejects non-positive counts. -/
def PatternTable.updatePattern (pt : PatternTable) (fromPage toPage count : Int) : PatternTable :=
  if pt.enableLearning = false ∨ isValidPage fromPage = false ∨ isValidPage toPage = false
      ∨ count ≤ 0 then
    pt
  else
    { pt with
      transitions := mapAdd (fromPage, toPage) count pt.transitions
      totalTransitions := pt.totalTransitions + count
      totalUpdates := pt.totalUpdates + 1
      predictions := mapErase fromPage pt.predictions }

/-- PatternTable::getTotalTransitionsFrom: sum of counts of all transitions
whose source is fromPage. -/
def PatternTable.getTotalTransitionsFrom (pt : PatternTable) (fromPage : Int) : Int :=
  ((pt.transitions.filter (fun e => decide (e.1.1 = fromPage))).map (fun e => e.2)).sum

/-- PatternTable::getTransitionCount. -/
def PatternTable.getTransitionCount (pt : PatternTable) (fromPage toPage : Int) : Int :=
  (mapFind? (fromPage, toPage) pt.transitions).getD 0

/-- PatternTable::getTransitionProbability, exact over Rat. -/
def PatternTable.getTransitionProbability (pt : PatternTable) (fromPage toPage : Int) : Rat :=
  if isValidPage fromPage = false ∨ isValidPage toPage = false then 0
  else
    match mapFind? (fromPage, toPage) pt.transitions with
    | none => 0
    | some c =>
      let totalFromPage := pt.getTotalTransitionsFrom fromPage
      if totalFromPage = 0 then 0 else (c : Rat) / (totalFromPage : Rat)

/-- Descending probability order used by the std::sort comparator
(a.second greater than b.second); the sorted postcondition of std::sort
for that comparator is exactly pairwise probGE. -/
def probGE (a b : Int × Rat) : Prop := b.2 ≤ a.2

instance probGE.decRel : DecidableRel probGE :=
  fun a b => inferInstanceAs (Decidable (b.2 ≤ a.2))

instance probGE.total : IsTotal (Int × Rat) probGE :=
  ⟨fun a b => le_total b.2 a.2⟩

instance probGE.trans : IsTrans (Int × Rat) probGE :=
  ⟨fun _ _ _ hab hbc => le_trans hbc hab⟩

/-- PatternTable::calculateProbabilities: pairs (toPage, count / totalFrom)
for every transition out of fromPage, sorted by probability descending.
The std::sort call is modelled by insertionSort, which meets the std::sort
postcondition (a permutation that is pairwise sorted for the comparator). -/
def PatternTable.calculateProbabilities (pt : PatternTable) (fromPage : Int) :
    List (Int × Rat) :=
  let totalFromPage := pt.getTotalTransitionsFrom fromPage
  if totalFromPage = 0 then []
  else
    List.insertionSort probGE
      ((pt.transitions.filter (fun e => decide (e.1.1 = fromPage))).map
        (fun e => (e.1.2, (e.2 : Rat) / (totalFromPage : Rat))))

/-- Model of static_cast<size_t>(int) on a 64-bit target. -/
def sizeTCast (n : Int) : Nat := (n % (18446744073709551616 : Int)).toNat

/-- The result-accumulation loop of PatternTable::getPredictions: push
every page whose probability reaches the threshold while fewer than
maxPredictions results have been accumulated. -/
def selectPredictions (threshold : Rat) (cap : Nat) (probs : List (Int × Rat)) : List Int :=
  probs.foldl
    (fun result prob =>
      if threshold ≤ prob.2 ∧ result.length < cap then result ++ [prob.1] else result)
    []

/-- The freshly computed prediction list of PatternTable::getPredictions
(the code path taken on a prediction-cache miss). -/
def PatternTable.computePredictions (pt : PatternTable) (currentPage : Int) : List Int :=
  selectPredictions pt.confidenceThreshold (sizeTCast pt.maxPredictions)
    (pt.calculateProbabilities currentPage)

/-- PatternTable::getPredictions: returns the prediction list and the
updated object (the C++ method mutates predictionRequests and the
prediction cache through const_cast). -/
def PatternTable.getPredictions (pt : PatternTable) (currentPage : Int) :
    List Int × PatternTable :=
  let pt1 := { pt with predictionRequests := pt.predictionRequests + 1 }
  if isValidPage currentPage = false then ([], pt1)
  else
    match mapFind? currentPage pt.predictions with
    | some cached => (cached, pt1)
    | none =>
      let result := pt.computePredictions currentPage
      (result, { pt1 with predictions := mapSet currentPage result pt.predictions })

/-- PatternTable::clear. -/
def PatternTable.clear (pt : PatternTable) : PatternTable :=
  { pt with
    transitions := []
    predictions := []
    totalTransitions := 0
    totalUpdates := 0
    predictionRequests := 0
    successfulPredictions := 0 }

/-- PatternTable::clearPredictionsCache. -/
def PatternTable.clearPredictionsCache (pt : PatternTable) : PatternTable :=
  { pt with predictions := [] }

/-- PatternTable::compact: erase transitions below minCount, subtracting
their counts from the running total. -/
def PatternTable.compact (pt : PatternTable) (minCount : Int) : PatternTable :=
  { pt with
    transitions := pt.transitions.filter (fun e => !decide (e.2 < minCount))
    totalTransitions := pt.totalTransitions -
      ((pt.transitions.filter (fun e => decide (e.2 < minCount))).map (fun e => e.2)).sum
    predictions := [] }

/-- Model of static_cast<int>(q) for a real value held exactly as a
rational: C++ truncates toward zero. -/
def ratTrunc (q : Rat) : Int := Int.tdiv q.num (q.den : Int)

/-- PatternTable::decay: guard, per-entry truncated scaling floored at 1,
truncated scaling of the running total, and a full prediction-cache clear. -/
def PatternTable.decay (pt : PatternTable) (factor : Rat) : PatternTable :=
  if factor ≤ 0 ∨ 1 ≤ factor then pt
  else
    { pt with
      transitions := pt.transitions.map (fun e =>
        (e.1, if ratTrunc ((e.2 : Rat) * factor) = 0 then 1
              else ratTrunc ((e.2 : Rat) * factor)))
      totalTransitions := ratTrunc ((pt.totalTransitions : Rat) * factor)
      predictions := [] }

/-! ## Operation alphabet and reachability for PatternTable

Reachable states are those produced from a freshly constructed table by
the learning, maintenance and query operations of the public API.  The
configuration setters are inline one-line field writes that nothing in
the repository calls; configuration is fixed at construction. -/

/-- One public mutating PatternTable operation. -/
inductive PTOp : Type
  | record (fromPage toPage : Int)
  | seq (pages : List Int)
  | update (fromPage toPage count : Int)
  | compactOp (minCount : Int)
  | clearOp
  | clearCacheOp
  | decayOp (factor : Rat)
  | query (page : Int)
  | setLearning (enable : Bool)

/-- Apply one operation to a PatternTable state. -/
def PTOp.apply (op : PTOp) (pt : PatternTable) : PatternTable :=
  match op with
  | .record f t => pt.recordTransition f t
  | .seq pages => pt.recordSequence pages
  | .update f t c => pt.updatePattern f t c
  | .compactOp m => pt.compact m
  | .clearOp => pt.clear
  | .clearCacheOp => pt.clearPredictionsCache
  | .decayOp f => pt.decay f
  | .query p => (pt.getPredictions p).2
  | .setLearning b => { pt with enableLearning := b }

/-- Run a list of operations from a state. -/
def runOps (pt : PatternTable) (ops : List PTOp) : PatternTable :=
  ops.foldl (fun s op => op.apply s) pt

/-- Whether an operation is a decay call. -/
def PTOp.isDecay : PTOp → Bool
  | .decayOp _ => true
  | _ => false

/-- Well-formedness of the transition map: unique keys (a std::map cannot
hold a key twice) and only valid pages as endpoints (every write path is
guarded by isValidPage). -/
def transWF (pt : PatternTable) : Prop :=
  (pt.transitions.map Prod.fst).Nodup
  ∧ ∀ e ∈ pt.transitions, 0 ≤ e.1.1 ∧ 0 ≤ e.1.2

/-- Coherence of the memoized prediction cache: unique keys, and every
memoized list equals the fresh computation on the current state. -/
def predCacheOK (pt : PatternTable) : Prop :=
  (pt.predictions.map Prod.fst).Nodup
  ∧ ∀ p l, mapFind? p pt.predictions = some l → l = pt.computePredictions p

/-- Invariant satisfied by every reachable PatternTable state. -/
def PTInv (pt : PatternTable) : Prop := transWF pt ∧ predCacheOK pt

/-! ## Server-side pattern learning (HttpServer::updatePatternTable)

The server keeps its own string-keyed pattern map and a per-client last
page map; this is where self-transitions are rejected. -/

/-- The pattern learning state held by HttpServer. -/
structure ServerPattern where
  patternTable : List ((String × String) × Int)
  clientLastPage : List (Int × String)
deriving DecidableEq

/-- HttpServer::updatePatternTable: skips empty pages and self-transitions,
otherwise increments the transition count and records the client position. -/
def updatePatternTable (s : ServerPattern) (clientId : Int) (fromPage toPage : String) :
    ServerPattern :=
  if fromPage = "" ∨ toPage = "" ∨ fromPage = toPage then s
  else
    { patternTable := mapAdd (fromPage, toPage) 1 s.patternTable
      clientLastPage := mapSet clientId toPage s.clientLastPage }

/-! ## The HTTP server response cache -/

/-- Fields of the CacheEntry class (CacheEntry.h). -/
structure CacheEntry where
  resourceId : Int
  content : String
  contentSize : Int
  timestamp : Rat
  ttl : Int
  accessCount : Int
  lastAccess : Rat
  dirty : Bool
deriving DecidableEq

/-- CacheEntry::isExpired at a probe time: a non-positive ttl never
expires, otherwise expired when now has reached timestamp + ttl. -/
def CacheEntry.isExpired (e : CacheEntry) (now : Rat) : Bool :=
  if e.ttl ≤ 0 then false else decide (e.timestamp + (e.ttl : Rat) ≤ now)

/-- CacheEntry::updateAccess. -/
def CacheEntry.updateAccess (e : CacheEntry) (now : Rat) : CacheEntry :=
  { e with accessCount := e.accessCount + 1, lastAccess := now }

/-- The cache-management state held by HttpServer: the response cache map
(sorted by key, mirroring std::map iteration order), the running size
counter and the configured capacity. -/
structure ServerCache where
  responseCache : List (Nat × CacheEntry)
  currentCacheSize : Int
  maxCacheSize : Int
deriving DecidableEq

/-- Insertion into the key-sorted association list modelling the std::map
assignment responseCache[pageName] = entry: overwrite in place when the
key exists, otherwise insert at the key-ordered position. -/
def cacheInsert (k : Nat) (v : CacheEntry) : List (Nat × CacheEntry) → List (Nat × CacheEntry)
  | [] => [(k, v)]
  | e :: rest =>
    if k < e.1 then (k, v) :: e :: rest
    else if k = e.1 then (k, v) :: rest
    else e :: cacheInsert k v rest

/-- Fresh server cache with a configured capacity (initialize sets
currentCacheSize = 0 and an empty map). -/
def emptyCache (maxSize : Int) : ServerCache :=
  { responseCache := [], currentCacheSize := 0, maxCacheSize := maxSize }

/-- HttpServer::checkResponseCache: hit on a present unexpired entry
(updating its access statistics), removal plus miss on a present expired
entry, miss otherwise.  Returns the hit flag and the updated state; the
out-parameter carries the entry content on a hit and is determined by the
returned state, so it is not carried separately. -/
def checkResponseCache (s : ServerCache) (page : Nat) (now : Rat) : Bool × ServerCache :=
  match mapFind? page s.responseCache with
  | none => (false, s)
  | some e =>
    if e.isExpired now = false then
      (true, { s with responseCache := cacheInsert page (e.updateAccess now) s.responseCache })
    else
      (false,
        { s with
          responseCache := mapErase page s.responseCache
          currentCacheSize := s.currentCacheSize - 1 })

/-- HttpServer::cleanupExpiredCache: remove every expired entry,
decrementing the size counter once per removal. -/
def cleanupExpiredCache (s : ServerCache) (now : Rat) : ServerCache :=
  { s with
    responseCache := s.responseCache.filter (fun e => !e.2.isExpired now)
    currentCacheSize := s.currentCacheSize -
      ((s.responseCache.filter (fun e => e.2.isExpired now)).length : Int) }

/-- The scan of HttpServer::evictLeastRecentlyUsed: starting from the
first entry, replace the candidate whenever a strictly older lastAccess
is seen; ties keep the earlier entry in key order. -/
def lruScan (l : List (Nat × CacheEntry)) (b : Nat × CacheEntry) : Nat × CacheEntry :=
  l.foldl (fun best x => if x.2.lastAccess < best.2.lastAccess then x else best) b

/-- HttpServer::evictLeastRecentlyUsed: no-op on an empty cache, else
erase the scanned LRU victim and decrement the size counter. -/
def evictLeastRecentlyUsed (s : ServerCache) : ServerCache :=
  match s.responseCache with
  | [] => s
  | e :: rest =>
    let victim := lruScan (e :: rest) e
    { s with
      responseCache := mapErase victim.1 s.responseCache
      currentCacheSize := s.currentCacheSize - 1 }

/-- HttpServer::addToCacheWithManagement: when the size counter has
reached capacity, first sweep expired entries, then if still at capacity
evict the LRU entry; finally store the entry and increment the counter
(the C++ function always returns true). -/
def addToCacheWithManagement (s : ServerCache) (pageName : Nat) (entry : CacheEntry)
    (now : Rat) : ServerCache :=
  let s1 :=
    if s.maxCacheSize ≤ s.currentCacheSize then
      let s2 := cleanupExpiredCache s now
      if s2.maxCacheSize ≤ s2.currentCacheSize then evictLeastRecentlyUsed s2 else s2
    else s
  { s1 with
    responseCache := cacheInsert pageName entry s1.responseCache
    currentCacheSize := s1.currentCacheSize + 1 }

/-- Fold a sequence of insert calls (page, entry, insertion time). -/
def insertAll (s : ServerCache) (l : List (Nat × CacheEntry × Rat)) : ServerCache :=
  l.foldl (fun st x => addToCacheWithManagement st x.1 x.2.1 x.2.2) s

/-- Well-formedness of the response cache: the association list is
strictly sorted by key, as a std::map iterates. -/
def CacheWF (s : ServerCache) : Prop :=
  s.responseCache.Pairwise (fun a b => a.1 < b.1)

/-! ## Concrete states used to instantiate the theorems -/

/-- Cache entry with a given creation timestamp, ttl and last access. -/
def mkEntry (ts : Rat) (ttl : Int) (la : Rat) : CacheEntry :=
  { resourceId := -1
    content := "x"
    contentSize := 1
    timestamp := ts
    ttl := ttl
    accessCount := 1
    lastAccess := la
    dirty := false }

/-- PatternTable holding counts 3 and 1 with a memoized prediction. -/
def ptDecayExample : PatternTable :=
  { transitions := [((0, 1), 3), ((0, 2), 1)]
    predictions := [(0, [1])]
    totalTransitions := 4
    confidenceThreshold := 1
    maxPredictions := 5
    enableLearning := true
    totalUpdates := 4
    predictionRequests := 0
    successfulPredictions := 0 }

/-- PatternTable with eight home-to-login and two home-to-dashboard
transitions recorded. -/
def ptScenarioA : PatternTable :=
  { transitions := [((0, 1), 8), ((0, 2), 2)]
    predictions := []
    totalTransitions := 10
    confidenceThreshold := 3 / 5
    maxPredictions := 5
    enableLearning := true
    totalUpdates := 10
    predictionRequests := 0
    successfulPredictions := 0 }

/-- Server cache holding one entry inserted at time 0 with ttl 5. -/
def cacheScenarioC : ServerCache :=
  { responseCache := [(0, mkEntry 0 5 0)]
    currentCacheSize := 1
    maxCacheSize := 20 }

/-! ## Helper lemmas about the association-list map primitives -/

theorem mapFind?_eq_none_iff {K V : Type} [DecidableEq K] (k : K) (l : List (K × V)) :
    mapFind? k l = none ↔ k ∉ l.map Prod.fst := by
  induction l with
  | nil => simp [mapFind?]
  | cons e rest ih =>
    rw [mapFind?]
    by_cases h : e.1 = k
    · simp [h]
    · rw [if_neg h, ih, List.map_cons]
      simp only [List.mem_cons, not_or]
      constructor
      · intro hk
        exact ⟨fun h1 => h h1.symm, hk⟩
      · intro hk
        exact hk.2

theorem mapFind?_of_mem_nodup {K V : Type} [DecidableEq K] {l : List (K × V)} {k : K} {v : V}
    (hnd : (l.map Prod.fst).Nodup) (hmem : (k, v) ∈ l) : mapFind? k l = some v := by
  induction l with
  | nil => simp at hmem
  | cons e rest ih =>
    simp only [List.map_cons, List.nodup_cons] at hnd
    rcases List.mem_cons.mp hmem with h | h
    · rw [← h]
      simp [mapFind?]
    · have hk : e.1 ≠ k := by
        intro hek
        exact hnd.1 (hek ▸ (List.mem_map.mpr ⟨(k, v), h, rfl⟩))
      simp [mapFind?, hk, ih hnd.2 h]

theorem mapErase_self_find {K V : Type} [DecidableEq K] {l : List (K × V)} {k : K}
    (hnd : (l.map Prod.fst).Nodup) : mapFind? k (mapErase k l) = none := by
  induction l with
  | nil => simp [mapErase, mapFind?]
  | cons e rest ih =>
    simp only [List.map_cons, List.nodup_cons] at hnd
    by_cases h : e.1 = k
    · rw [mapErase, if_pos h, mapFind?_eq_none_iff]
      exact fun hk => hnd.1 (h ▸ hk)
    · rw [mapErase, if_neg h, mapFind?, if_neg h]
      exact ih hnd.2

theorem mapErase_other_find {K V : Type} [DecidableEq K] (l : List (K × V)) {k k' : K}
    (h : k' ≠ k) : mapFind? k' (mapErase k l) = mapFind? k' l := by
  induction l with
  | nil => rfl
  | cons e rest ih =>
    by_cases he : e.1 = k
    · rw [mapErase, if_pos he, mapFind?, if_neg (fun hk : e.1 = k' => h (hk ▸ he ▸ rfl))]
    · rw [mapErase, if_neg he, mapFind?, mapFind?]
      by_cases he' : e.1 = k'
      · rw [if_pos he', if_pos he']
      · rw [if_neg he', if_neg he', ih]

theorem mapSet_self_find {K V : Type} [DecidableEq K] (l : List (K × V)) (k : K) (v : V) :
    mapFind? k (mapSet k v l) = some v := by
  induction l with
  | nil => simp [mapSet, mapFind?]
  | cons e rest ih =>
    by_cases h : e.1 = k
    · simp [mapSet, h, mapFind?]
    · simp [mapSet, h, mapFind?, ih]

theorem mapSet_other_find {K V : Type} [DecidableEq K] (l : List (K × V)) {k k' : K} (v : V)
    (h : k' ≠ k) : mapFind? k' (mapSet k v l) = mapFind? k' l := by
  induction l with
  | nil => simp [mapSet, mapFind?, Ne.symm h]
  | cons e rest ih =>
    by_cases he : e.1 = k
    · rw [mapSet, if_pos he, mapFind?, if_neg (fun hk : k = k' => h hk.symm), mapFind?,
        if_neg (he ▸ fun hk : e.1 = k' => h (hk ▸ he ▸ rfl))]
    · rw [mapSet, if_neg he, mapFind?, mapFind?]
      by_cases he' : e.1 = k'
      · rw [if_pos he', if_pos he']
      · rw [if_neg he', if_neg he', ih]

theorem mapAdd_snd_sum (k : Int × Int) (d : Int) (l : List ((Int × Int) × Int)) :
    ((mapAdd k d l).map (fun e => e.2)).sum = (l.map (fun e => e.2)).sum + d := by
  induction l with
  | nil => simp [mapAdd]
  | cons e rest ih =>
    by_cases h : e.1 = k
    · simp [mapAdd, h]
      ring
    · simp [mapAdd, h, ih]
      ring

theorem mapAdd_mem {K : Type} [DecidableEq K] {l : List (K × Int)} {k : K} {d : Int}
    {e : K × Int} (hmem : e ∈ mapAdd k d l) : e.1 = k ∨ e ∈ l := by
  induction l with
  | nil =>
    simp [mapAdd] at hmem
    exact Or.inl (by rw [hmem])
  | cons x rest ih =>
    by_cases h : x.1 = k
    · rw [mapAdd, if_pos h] at hmem
      rcases List.mem_cons.mp hmem with h1 | h1
      · exact Or.inl (by rw [h1, h])
      · exact Or.inr (List.mem_cons_of_mem x h1)
    · rw [mapAdd, if_neg h] at hmem
      rcases List.mem_cons.mp hmem with h1 | h1
      · exact Or.inr (h1 ▸ List.mem_cons_self x rest)
      · rcases ih h1 with h2 | h2
        · exact Or.inl h2
        · exact Or.inr (List.mem_cons_of_mem x h2)

theorem mapAdd_keys (k : Int × Int) (d : Int) (l : List ((Int × Int) × Int)) :
    (mapAdd k d l).map Prod.fst = l.map Prod.fst ∨
      (mapAdd k d l).map Prod.fst = l.map Prod.fst ++ [k] ∧ k ∉ l.map Prod.fst := by
  induction l with
  | nil => exact Or.inr ⟨by simp [mapAdd], by simp⟩
  | cons e rest ih =>
    by_cases h : e.1 = k
    · exact Or.inl (by simp [mapAdd, h])
    · rcases ih with h1 | ⟨h1, h2⟩
      · exact Or.inl (by simp [mapAdd, h, h1])
      · refine Or.inr ⟨by simp [mapAdd, h, h1], ?_⟩
        simp only [List.map_cons, List.mem_cons]
        rintro (h3 | h3)
        · exact h (h3.symm)
        · exact h2 h3

theorem mapAdd_keys_nodup (k : Int × Int) (d : Int) {l : List ((Int × Int) × Int)}
    (hnd : (l.map Prod.fst).Nodup) : ((mapAdd k d l).map Prod.fst).Nodup := by
  rcases mapAdd_keys k d l with h | ⟨h, hk⟩
  · rw [h]; exact hnd
  · rw [h, List.nodup_append]
    refine ⟨hnd, List.nodup_singleton k, ?_⟩
    intro a ha hb
    exact hk ((List.mem_singleton.mp hb) ▸ ha)

theorem mapAdd_filter_src (k : Int × Int) (d : Int) (l : List ((Int × Int) × Int)) {q : Int}
    (h : k.1 ≠ q) :
    (mapAdd k d l).filter (fun e => decide (e.1.1 = q)) =
      l.filter (fun e => decide (e.1.1 = q)) := by
  induction l with
  | nil => simp [mapAdd, List.filter, h]
  | cons e rest ih =>
    by_cases he : e.1 = k
    · have hne : ¬ e.1.1 = q := by rw [he]; exact h
      rw [mapAdd, if_pos he]
      simp [List.filter, hne]
    · rw [mapAdd, if_neg he]
      by_cases hq : e.1.1 = q
      · simp [List.filter, hq, ih]
      · simp [List.filter, hq, ih]

/-! ## Lemmas about ratTrunc (the static_cast int conversion) -/

theorem ratTrunc_eq_floor {q : Rat} (h : 0 ≤ q) : ratTrunc q = ⌊q⌋ := by
  have hnum : 0 ≤ q.num := Rat.num_nonneg.mpr h
  have hden : (0 : Int) ≤ (q.den : Int) := Int.ofNat_nonneg q.den
  rw [ratTrunc, Int.tdiv_eq_ediv hnum hden, Rat.floor_def]

/-! ## Claim C10 -/

/-- C10: for every factor f with f ≤ 0 or f ≥ 1, decay(f) is a total
no-op: the state (all counts, the running total and the memoized
prediction cache) is returned unchanged and no error occurs. -/
theorem decay_out_of_range_noop (pt : PatternTable) (f : Rat) (h : f ≤ 0 ∨ 1 ≤ f) :
    pt.decay f = pt := by
  unfold PatternTable.decay
  rw [if_pos h]

/-- Witness for C10 at factor 2 on a concrete table. -/
theorem decay_out_of_range_noop_witness :
    ((2 : Rat) ≤ 0 ∨ 1 ≤ (2 : Rat)) ∧ ptDecayExample.decay 2 = ptDecayExample :=
  ⟨Or.inr (by norm_num),
    decay_out_of_range_noop ptDecayExample 2 (Or.inr (by norm_num))⟩

/-! ## Claim C2 -/

/-- Counterexample to C2 as stated: PatternTable::recordTransition has no
self-loop guard, so recordTransition(0, 0) on a fresh table changes the
running total from 0 to 1. -/
theorem recordTransition_self_loop_counterexample :
    ((PatternTable.init 1 5).recordTransition 0 0).totalTransitions ≠
      (PatternTable.init 1 5).totalTransitions := by
  simp [PatternTable.recordTransition, PatternTable.init, isValidPage]

theorem mapAdd_find_self {K : Type} [DecidableEq K] (k : K) (d : Int) :
    ∀ l : List (K × Int), mapFind? k (mapAdd k d l) = some ((mapFind? k l).getD 0 + d) := by
  intro l
  induction l with
  | nil => simp [mapAdd, mapFind?]
  | cons e rest ih =>
    by_cases h : e.1 = k
    · rw [mapAdd, if_pos h, mapFind?, if_pos h, mapFind?, if_pos h, Option.getD_some]
    · rw [mapAdd, if_neg h, mapFind?, if_neg h, mapFind?, if_neg h, ih]

/-- C2 amended: the self-transition guard lives one layer up, in
HttpServer::updatePatternTable, which is a total no-op when the source
and destination page coincide; PatternTable::recordTransition itself does
record a self-transition for any valid page with learning enabled,
incrementing the stored (x, x) transition count and the running total
each by 1. -/
theorem self_transition_guard :
    (∀ (s : ServerPattern) (clientId : Int) (page : String),
        updatePatternTable s clientId page page = s)
    ∧ (∀ (pt : PatternTable) (x : Int), 0 ≤ x → pt.enableLearning = true →
        (pt.recordTransition x x).totalTransitions = pt.totalTransitions + 1
        ∧ (pt.recordTransition x x).getTransitionCount x x
            = pt.getTransitionCount x x + 1) := by
  constructor
  · intro s c page
    unfold updatePatternTable
    rw [if_pos (Or.inr (Or.inr rfl))]
  · intro pt x hx hl
    have hguard : ¬ (pt.enableLearning = false ∨ isValidPage x = false
        ∨ isValidPage x = false) := by
      simp [hl, isValidPage, hx]
    rw [PatternTable.recordTransition, if_neg hguard]
    refine ⟨rfl, ?_⟩
    show (mapFind? (x, x) (mapAdd (x, x) 1 pt.transitions)).getD 0
      = (mapFind? (x, x) pt.transitions).getD 0 + 1
    rw [mapAdd_find_self, Option.getD_some]

/-- Witness for C2 amended at concrete inputs. -/
theorem self_transition_guard_witness :
    updatePatternTable ⟨[], []⟩ 0 "home" "home" = (⟨[], []⟩ : ServerPattern)
    ∧ (((PatternTable.init 1 5).recordTransition 0 0).totalTransitions =
          (PatternTable.init 1 5).totalTransitions + 1
        ∧ ((PatternTable.init 1 5).recordTransition 0 0).getTransitionCount 0 0 =
          (PatternTable.init 1 5).getTransitionCount 0 0 + 1) :=
  ⟨self_transition_guard.1 ⟨[], []⟩ 0 "home",
    self_transition_guard.2 (PatternTable.init 1 5) 0 (by norm_num) rfl⟩

/-! ## Claim C8 -/

/-- C8: for every factor in (0,1), decay multiplies each transition count
by the factor rounding down but floors each surviving count at 1 (no
count ever reaches 0), and clears the whole memoized prediction cache, so
the next getPredictions call recomputes its result instead of returning a
pre-decay memoized list. -/
theorem decay_scales_counts_and_invalidates (pt : PatternTable) (f : Rat)
    (h0 : 0 < f) (h1 : f < 1) (hpos : ∀ e ∈ pt.transitions, 0 ≤ e.2) :
    (pt.decay f).transitions =
      pt.transitions.map (fun e => (e.1, max 1 ⌊(e.2 : Rat) * f⌋))
    ∧ (∀ e ∈ (pt.decay f).transitions, 1 ≤ e.2)
    ∧ (pt.decay f).predictions = []
    ∧ (∀ p, isValidPage p = true →
        ((pt.decay f).getPredictions p).1 = (pt.decay f).computePredictions p) := by
  have hguard : ¬ (f ≤ 0 ∨ 1 ≤ f) := by
    push_neg
    exact ⟨h0, h1⟩
  have htrans : (pt.decay f).transitions =
      pt.transitions.map (fun e => (e.1, max 1 ⌊(e.2 : Rat) * f⌋)) := by
    unfold PatternTable.decay
    rw [if_neg hguard]
    refine List.map_congr_left ?_
    intro e he
    have hq : (0 : Rat) ≤ (e.2 : Rat) * f :=
      mul_nonneg (by exact_mod_cast hpos e he) (le_of_lt h0)
    have hfl : (0 : Int) ≤ ⌊(e.2 : Rat) * f⌋ := Int.floor_nonneg.mpr hq
    rw [ratTrunc_eq_floor hq]
    have hval : (if ⌊(e.2 : Rat) * f⌋ = 0 then (1 : Int) else ⌊(e.2 : Rat) * f⌋) =
        max 1 ⌊(e.2 : Rat) * f⌋ := by
      rcases eq_or_lt_of_le hfl with h2 | h2
      · rw [← h2]
        simp
      · rw [if_neg (by omega)]
        exact (max_eq_right (by omega)).symm
    rw [hval]
  have hpred : (pt.decay f).predictions = [] := by
    unfold PatternTable.decay
    rw [if_neg hguard]
  refine ⟨htrans, ?_, hpred, ?_⟩
  · intro e he
    rw [htrans] at he
    rcases List.mem_map.mp he with ⟨x, _, hx⟩
    rw [← hx]
    exact le_max_left 1 _
  · intro p hp
    rw [PatternTable.getPredictions, if_neg (by simp [hp]), hpred]
    rfl

/-- Witness for C8: decay(1/2) applied to counts 3 and 1 yields 1 and 1,
and empties the prediction cache. -/
theorem decay_scales_counts_witness :
    (ptDecayExample.decay (1 / 2)).transitions = [((0, 1), 1), ((0, 2), 1)]
    ∧ (ptDecayExample.decay (1 / 2)).predictions = [] := by
  have h := decay_scales_counts_and_invalidates ptDecayExample (1 / 2)
    (by norm_num) (by norm_num) (by decide)
  refine ⟨h.1.trans ?_, h.2.2.1⟩
  have h3 : (1 : Int) ⊔ ⌊((3 : Int) : Rat) * (1 / 2)⌋ = 1 := by
    norm_num
  have h1 : (1 : Int) ⊔ ⌊((1 : Int) : Rat) * (1 / 2)⌋ = 1 := by
    norm_num
  simp only [ptDecayExample, List.map_cons, List.map_nil, h3, h1]

/-! ## Claim C3 -/

theorem sum_div_cast (l : List Int) (T : Rat) :
    (l.map (fun c : Int => (c : Rat) / T)).sum = ((l.sum : Int) : Rat) / T := by
  induction l with
  | nil => simp
  | cons a rest ih =>
    rw [List.map_cons, List.sum_cons, ih, List.sum_cons, Int.cast_add, add_div]

theorem calculateProbabilities_snd_sum (pt : PatternTable) (p : Int)
    (hpos : pt.getTotalTransitionsFrom p ≠ 0) :
    ((pt.calculateProbabilities p).map (fun pr => pr.2)).sum = 1 := by
  rw [PatternTable.calculateProbabilities]
  simp only [if_neg hpos]
  have hperm :
      ((List.insertionSort probGE
          ((pt.transitions.filter (fun e => decide (e.1.1 = p))).map
            (fun e => (e.1.2, (e.2 : Rat) / (pt.getTotalTransitionsFrom p : Rat))))).map
        (fun pr => pr.2)).Perm
      (((pt.transitions.filter (fun e => decide (e.1.1 = p))).map
          (fun e => (e.1.2, (e.2 : Rat) / (pt.getTotalTransitionsFrom p : Rat)))).map
        (fun pr => pr.2)) :=
    (List.perm_insertionSort probGE _).map _
  rw [hperm.sum_eq, List.map_map]
  have hmm :
      ((pt.transitions.filter (fun e => decide (e.1.1 = p))).map
          ((fun pr : Int × Rat => pr.2) ∘
            (fun e : (Int × Int) × Int =>
              (e.1.2, (e.2 : Rat) / (pt.getTotalTransitionsFrom p : Rat)))))
        = (((pt.transitions.filter (fun e => decide (e.1.1 = p))).map (fun e => e.2)).map
            (fun c : Int => (c : Rat) / (pt.getTotalTransitionsFrom p : Rat))) := by
    rw [List.map_map]
    rfl
  rw [hmm, sum_div_cast]
  have hT : ((pt.transitions.filter (fun e => decide (e.1.1 = p))).map (fun e => e.2)).sum
      = pt.getTotalTransitionsFrom p := rfl
  rw [hT]
  exact div_self (by exact_mod_cast hpos)

theorem calculateProbabilities_prob_formula (pt : PatternTable) (p : Int)
    (hnd : (pt.transitions.map Prod.fst).Nodup) :
    ∀ pr ∈ pt.calculateProbabilities p,
      pr.2 = (pt.getTransitionCount p pr.1 : Rat) / (pt.getTotalTransitionsFrom p : Rat) := by
  intro pr hpr
  rw [PatternTable.calculateProbabilities] at hpr
  by_cases hT : pt.getTotalTransitionsFrom p = 0
  · simp only [if_pos hT] at hpr
    simp at hpr
  · simp only [if_neg hT] at hpr
    have hpr2 := (List.perm_insertionSort probGE _).mem_iff.mp hpr
    rcases List.mem_map.mp hpr2 with ⟨e, he, hpre⟩
    have hsrc : e.1.1 = p := by
      have := List.of_mem_filter he
      exact of_decide_eq_true this
    have hmem : e ∈ pt.transitions := List.mem_of_mem_filter he
    have hkey : e.1 = (p, pr.1) := by
      have h2 : e.1.2 = pr.1 := by rw [← hpre]
      rw [← hsrc, ← h2]
    have hfind : mapFind? (p, pr.1) pt.transitions = some e.2 := by
      rw [← hkey]
      exact mapFind?_of_mem_nodup hnd (by rw [Prod.mk.eta]; exact hmem)
    rw [PatternTable.getTransitionCount, hfind, Option.getD_some, ← hpre]

/-- C3: for every page p with at least one recorded outgoing transition,
each entry of calculateProbabilities(p) carries probability
count(p, to) / totalFrom(p), and these probabilities sum exactly to 1
over the rationals. -/
theorem probability_conservation (pt : PatternTable) (p : Int)
    (hnd : (pt.transitions.map Prod.fst).Nodup)
    (hpos : 0 < pt.getTotalTransitionsFrom p) :
    ((pt.calculateProbabilities p).map (fun pr => pr.2)).sum = 1
    ∧ ∀ pr ∈ pt.calculateProbabilities p,
        pr.2 = (pt.getTransitionCount p pr.1 : Rat) / (pt.getTotalTransitionsFrom p : Rat) :=
  ⟨calculateProbabilities_snd_sum pt p (ne_of_gt hpos),
    calculateProbabilities_prob_formula pt p hnd⟩

/-- Witness for C3 on the table with counts 8 and 2 out of page 0. -/
theorem probability_conservation_witness :
    0 < ptScenarioA.getTotalTransitionsFrom 0
    ∧ ((ptScenarioA.calculateProbabilities 0).map (fun pr => pr.2)).sum = 1 :=
  ⟨by decide, (probability_conservation ptScenarioA 0 (by decide) (by decide)).1⟩

/-! ## Lemmas supporting the prediction-bound claim -/

theorem mapErase_sublist {K V : Type} [DecidableEq K] (k : K) (l : List (K × V)) :
    (mapErase k l).Sublist l := by
  induction l with
  | nil => simp [mapErase]
  | cons e rest ih =>
    rw [mapErase]
    by_cases h : e.1 = k
    · rw [if_pos h]
      exact List.Sublist.cons e (List.Sublist.refl rest)
    · rw [if_neg h]
      exact ih.cons₂ e

theorem mapSet_keys {K V : Type} [DecidableEq K] (k : K) (v : V) (l : List (K × V)) :
    (mapSet k v l).map Prod.fst = l.map Prod.fst ∨
      ((mapSet k v l).map Prod.fst = l.map Prod.fst ++ [k] ∧ k ∉ l.map Prod.fst) := by
  induction l with
  | nil => exact Or.inr ⟨by simp [mapSet], by simp⟩
  | cons e rest ih =>
    by_cases h : e.1 = k
    · exact Or.inl (by simp [mapSet, h])
    · rcases ih with h1 | ⟨h1, h2⟩
      · exact Or.inl (by simp [mapSet, h, h1])
      · refine Or.inr ⟨by simp [mapSet, h, h1], ?_⟩
        simp only [List.map_cons, List.mem_cons]
        rintro (h3 | h3)
        · exact h h3.symm
        · exact h2 h3

theorem mapSet_keys_nodup {K V : Type} [DecidableEq K] (k : K) (v : V) {l : List (K × V)}
    (hnd : (l.map Prod.fst).Nodup) : ((mapSet k v l).map Prod.fst).Nodup := by
  rcases mapSet_keys k v l with h | ⟨h, hk⟩
  · rw [h]; exact hnd
  · rw [h, List.nodup_append]
    refine ⟨hnd, List.nodup_singleton k, ?_⟩
    intro a ha hb
    exact hk ((List.mem_singleton.mp hb) ▸ ha)

theorem map_fst_pair_map {A B C D : Type} (l : List ((A × B) × C)) (g : (A × B) × C → D) :
    (l.map (fun e => (e.1, g e))).map Prod.fst = l.map Prod.fst := by
  rw [List.map_map]
  rfl

theorem selectPredictions_go (thr : Rat) (cap : Nat) :
    ∀ (l : List (Int × Rat)) (acc : List Int),
      l.foldl (fun result prob =>
          if thr ≤ prob.2 ∧ result.length < cap then result ++ [prob.1] else result) acc
        = acc ++ ((l.filter (fun pr => decide (thr ≤ pr.2))).take (cap - acc.length)).map
            (fun pr => pr.1) := by
  intro l
  induction l with
  | nil => intro acc; simp
  | cons x rest ih =>
    intro acc
    rw [List.foldl_cons, List.filter_cons]
    by_cases hx : thr ≤ x.2
    · by_cases hlen : acc.length < cap
      · rw [if_pos (And.intro hx hlen), if_pos (decide_eq_true hx), ih]
        have hl1 : (acc ++ [x.1]).length = acc.length + 1 := by simp
        have hcap : cap - acc.length = (cap - (acc ++ [x.1]).length) + 1 := by
          rw [hl1]
          omega
        rw [hcap, List.take_succ_cons, List.map_cons]
        simp [List.append_assoc]
      · rw [if_neg (fun hc : thr ≤ x.2 ∧ acc.length < cap => hlen hc.2),
          if_pos (decide_eq_true hx), ih]
        have h0 : cap - acc.length = 0 := by omega
        rw [h0]
        simp
    · have hxd : ¬ (decide (thr ≤ x.2) = true) := by simpa using hx
      rw [if_neg (fun hc : thr ≤ x.2 ∧ acc.length < cap => hx hc.1), if_neg hxd, ih]

theorem selectPredictions_eq (thr : Rat) (cap : Nat) (probs : List (Int × Rat)) :
    selectPredictions thr cap probs
      = ((probs.filter (fun pr => decide (thr ≤ pr.2))).take cap).map (fun pr => pr.1) := by
  rw [selectPredictions, selectPredictions_go]
  simp

theorem sizeTCast_eq {n : Int} (h0 : 0 ≤ n) (h1 : n < 18446744073709551616) :
    sizeTCast n = n.toNat := by
  rw [sizeTCast, Int.emod_eq_of_lt h0 h1]

theorem calculateProbabilities_sorted (pt : PatternTable) (p : Int) :
    (pt.calculateProbabilities p).Pairwise probGE := by
  rw [PatternTable.calculateProbabilities]
  by_cases hT : pt.getTotalTransitionsFrom p = 0
  · simp [hT]
  · simp only [if_neg hT]
    exact List.sorted_insertionSort probGE _

theorem calculateProbabilities_TP (pt : PatternTable) (p : Int) (hwf : transWF pt) :
    ∀ pr ∈ pt.calculateProbabilities p, pt.getTransitionProbability p pr.1 = pr.2 := by
  intro pr hpr
  rw [PatternTable.calculateProbabilities] at hpr
  by_cases hT : pt.getTotalTransitionsFrom p = 0
  · simp [hT] at hpr
  · simp only [if_neg hT] at hpr
    have hpr2 := (List.perm_insertionSort probGE _).mem_iff.mp hpr
    rcases List.mem_map.mp hpr2 with ⟨e, he, hpre⟩
    have h1 : pr.1 = e.1.2 := by rw [← hpre]
    have h2 : pr.2 = (e.2 : Rat) / (pt.getTotalTransitionsFrom p : Rat) := by rw [← hpre]
    have hsrc : e.1.1 = p := by
      have h3 := (List.mem_filter.mp he).2
      exact of_decide_eq_true h3
    have hmem : e ∈ pt.transitions := (List.mem_filter.mp he).1
    have hvalids := hwf.2 e hmem
    have hp : isValidPage p = true := by
      rw [isValidPage, decide_eq_true_iff, ← hsrc]
      exact hvalids.1
    have hq : isValidPage pr.1 = true := by
      rw [isValidPage, decide_eq_true_iff, h1]
      exact hvalids.2
    have hkey : (p, pr.1) = e.1 := by
      rw [h1, ← hsrc]
    have hfind : mapFind? (p, pr.1) pt.transitions = some e.2 := by
      rw [hkey]
      exact mapFind?_of_mem_nodup hwf.1 (by rw [Prod.mk.eta]; exact hmem)
    rw [PatternTable.getTransitionProbability, if_neg (by simp [hp, hq]), hfind]
    simp only [if_neg hT]
    rw [h2]

theorem computePredictions_congr (pt1 pt2 : PatternTable) (q : Int)
    (ht : pt1.transitions.filter (fun e => decide (e.1.1 = q))
        = pt2.transitions.filter (fun e => decide (e.1.1 = q)))
    (hc : pt1.confidenceThreshold = pt2.confidenceThreshold)
    (hm : pt1.maxPredictions = pt2.maxPredictions) :
    pt1.computePredictions q = pt2.computePredictions q := by
  simp only [PatternTable.computePredictions, PatternTable.calculateProbabilities,
    PatternTable.getTotalTransitionsFrom, ht, hc, hm]

/-! ## The reachability invariant of PatternTable -/

theorem PTInv_init (threshold : Rat) (maxPred : Int) :
    PTInv (PatternTable.init threshold maxPred) := by
  refine ⟨⟨by simp [PatternTable.init], ?_⟩, ⟨by simp [PatternTable.init], ?_⟩⟩
  · intro e he
    simp [PatternTable.init] at he
  · intro p l hf
    simp [PatternTable.init, mapFind?] at hf

theorem valid_of_not_false {x : Int} (h : ¬ isValidPage x = false) : 0 ≤ x := by
  simpa [isValidPage] using h

theorem PTInv_pt1 (pt : PatternTable) (h : PTInv pt) :
    PTInv { pt with predictionRequests := pt.predictionRequests + 1 } := by
  refine ⟨h.1, ⟨h.2.1, ?_⟩⟩
  intro q l hf
  rw [h.2.2 q l hf]
  exact computePredictions_congr pt _ q rfl rfl rfl

theorem PTInv_recordTransition (pt : PatternTable) (f t : Int) (h : PTInv pt) :
    PTInv (pt.recordTransition f t) := by
  rw [PatternTable.recordTransition]
  by_cases hg : pt.enableLearning = false ∨ isValidPage f = false ∨ isValidPage t = false
  · rw [if_pos hg]
    exact h
  · rw [if_neg hg]
    push_neg at hg
    obtain ⟨hl, hf, ht⟩ := hg
    have hfv : 0 ≤ f := valid_of_not_false hf
    have htv : 0 ≤ t := valid_of_not_false ht
    refine ⟨⟨mapAdd_keys_nodup _ _ h.1.1, ?_⟩,
      ⟨List.Nodup.sublist ((mapErase_sublist f pt.predictions).map Prod.fst) h.2.1, ?_⟩⟩
    · intro e he
      rcases mapAdd_mem he with h1 | h1
      · rw [h1]
        exact ⟨hfv, htv⟩
      · exact h.1.2 e h1
    · intro q l hfq
      by_cases hq : q = f
      · subst hq
        rw [mapErase_self_find h.2.1] at hfq
        exact absurd hfq (by simp)
      · rw [mapErase_other_find _ hq] at hfq
        rw [h.2.2 q l hfq]
        exact computePredictions_congr pt _ q
          (mapAdd_filter_src (f, t) 1 pt.transitions (fun h2 => hq h2.symm)).symm rfl rfl

theorem PTInv_foldl_record (l : List (Int × Int)) : ∀ pt, PTInv pt →
    PTInv (l.foldl (fun s p => s.recordTransition p.1 p.2) pt) := by
  induction l with
  | nil => intro pt h; exact h
  | cons x rest ih => intro pt h; exact ih _ (PTInv_recordTransition pt x.1 x.2 h)

theorem PTInv_recordSequence (pt : PatternTable) (pages : List Int) (h : PTInv pt) :
    PTInv (pt.recordSequence pages) := by
  rw [PatternTable.recordSequence]
  split
  · exact h
  · exact PTInv_foldl_record _ pt h

theorem PTInv_updatePattern (pt : PatternTable) (f t c : Int) (h : PTInv pt) :
    PTInv (pt.updatePattern f t c) := by
  rw [PatternTable.updatePattern]
  by_cases hg : pt.enableLearning = false ∨ isValidPage f = false ∨ isValidPage t = false
      ∨ c ≤ 0
  · rw [if_pos hg]
    exact h
  · rw [if_neg hg]
    push_neg at hg
    obtain ⟨hl, hf, ht, hc⟩ := hg
    have hfv : 0 ≤ f := valid_of_not_false hf
    have htv : 0 ≤ t := valid_of_not_false ht
    refine ⟨⟨mapAdd_keys_nodup _ _ h.1.1, ?_⟩,
      ⟨List.Nodup.sublist ((mapErase_sublist f pt.predictions).map Prod.fst) h.2.1, ?_⟩⟩
    · intro e he
      rcases mapAdd_mem he with h1 | h1
      · rw [h1]
        exact ⟨hfv, htv⟩
      · exact h.1.2 e h1
    · intro q l hfq
      by_cases hq : q = f
      · subst hq
        rw [mapErase_self_find h.2.1] at hfq
        exact absurd hfq (by simp)
      · rw [mapErase_other_find _ hq] at hfq
        rw [h.2.2 q l hfq]
        exact computePredictions_congr pt _ q
          (mapAdd_filter_src (f, t) c pt.transitions (fun h2 => hq h2.symm)).symm rfl rfl

theorem PTInv_compact (pt : PatternTable) (m : Int) (h : PTInv pt) : PTInv (pt.compact m) := by
  refine ⟨⟨?_, ?_⟩, ⟨by simp [PatternTable.compact], ?_⟩⟩
  · exact List.Nodup.sublist ((List.filter_sublist pt.transitions).map Prod.fst) h.1.1
  · intro e he
    exact h.1.2 e (List.mem_of_mem_filter he)
  · intro q l hf
    simp [PatternTable.compact, mapFind?] at hf

theorem PTInv_clear (pt : PatternTable) (_h : PTInv pt) : PTInv pt.clear := by
  refine ⟨⟨by simp [PatternTable.clear], ?_⟩, ⟨by simp [PatternTable.clear], ?_⟩⟩
  · intro e he
    simp [PatternTable.clear] at he
  · intro q l hf
    simp [PatternTable.clear, mapFind?] at hf

theorem PTInv_clearCache (pt : PatternTable) (h : PTInv pt) :
    PTInv pt.clearPredictionsCache := by
  refine ⟨h.1, ⟨by simp [PatternTable.clearPredictionsCache], ?_⟩⟩
  intro q l hf
  simp [PatternTable.clearPredictionsCache, mapFind?] at hf

theorem PTInv_decay (pt : PatternTable) (f : Rat) (h : PTInv pt) : PTInv (pt.decay f) := by
  rw [PatternTable.decay]
  by_cases hg : f ≤ 0 ∨ 1 ≤ f
  · rw [if_pos hg]
    exact h
  · rw [if_neg hg]
    refine ⟨⟨?_, ?_⟩, ⟨by simp, ?_⟩⟩
    · rw [map_fst_pair_map]
      exact h.1.1
    · intro e he
      rcases List.mem_map.mp he with ⟨x, hx, hxe⟩
      have h1 : e.1 = x.1 := by rw [← hxe]
      rw [h1]
      exact h.1.2 x hx
    · intro q l hf
      simp [mapFind?] at hf

theorem PTInv_setLearning (pt : PatternTable) (b : Bool) (h : PTInv pt) :
    PTInv { pt with enableLearning := b } := by
  refine ⟨h.1, ⟨h.2.1, ?_⟩⟩
  intro q l hf
  rw [h.2.2 q l hf]
  exact computePredictions_congr pt _ q rfl rfl rfl

theorem PTInv_query (pt : PatternTable) (p : Int) (h : PTInv pt) :
    PTInv (pt.getPredictions p).2 := by
  rw [PatternTable.getPredictions]
  by_cases hv : isValidPage p = false
  · simp only [if_pos hv]
    exact PTInv_pt1 pt h
  · simp only [if_neg hv]
    cases hfind : mapFind? p pt.predictions with
    | some cached =>
      simp only [hfind]
      exact PTInv_pt1 pt h
    | none =>
      simp only [hfind]
      refine ⟨h.1, ⟨mapSet_keys_nodup _ _ h.2.1, ?_⟩⟩
      intro q l hf
      by_cases hq : q = p
      · subst hq
        rw [mapSet_self_find] at hf
        have hl : l = pt.computePredictions q := by
          injection hf with hf2
          exact hf2.symm
        rw [hl]
        exact computePredictions_congr pt _ q rfl rfl rfl
      · rw [mapSet_other_find _ _ hq] at hf
        rw [h.2.2 q l hf]
        exact computePredictions_congr pt _ q rfl rfl rfl

theorem PTInv_apply (op : PTOp) (pt : PatternTable) (h : PTInv pt) : PTInv (op.apply pt) := by
  cases op with
  | record f t => exact PTInv_recordTransition pt f t h
  | seq pages => exact PTInv_recordSequence pt pages h
  | update f t c => exact PTInv_updatePattern pt f t c h
  | compactOp m => exact PTInv_compact pt m h
  | clearOp => exact PTInv_clear pt h
  | clearCacheOp => exact PTInv_clearCache pt h
  | decayOp f => exact PTInv_decay pt f h
  | query p => exact PTInv_query pt p h
  | setLearning b => exact PTInv_setLearning pt b h

theorem PTInv_runOps_aux (ops : List PTOp) : ∀ pt, PTInv pt → PTInv (runOps pt ops) := by
  induction ops with
  | nil => intro pt h; exact h
  | cons op rest ih => intro pt h; exact ih _ (PTInv_apply op pt h)

theorem PTInv_runOps (threshold : Rat) (maxPred : Int) (ops : List PTOp) :
    PTInv (runOps (PatternTable.init threshold maxPred) ops) :=
  PTInv_runOps_aux ops _ (PTInv_init threshold maxPred)

/-! ## Configuration is constant along every operation -/

theorem recordTransition_config (pt : PatternTable) (f t : Int) :
    (pt.recordTransition f t).confidenceThreshold = pt.confidenceThreshold
    ∧ (pt.recordTransition f t).maxPredictions = pt.maxPredictions := by
  rw [PatternTable.recordTransition]
  split <;> exact ⟨rfl, rfl⟩

theorem foldl_record_config (l : List (Int × Int)) : ∀ pt : PatternTable,
    ((l.foldl (fun s x => s.recordTransition x.1 x.2) pt).confidenceThreshold
        = pt.confidenceThreshold)
    ∧ ((l.foldl (fun s x => s.recordTransition x.1 x.2) pt).maxPredictions
        = pt.maxPredictions) := by
  induction l with
  | nil => intro pt; exact ⟨rfl, rfl⟩
  | cons x rest ih =>
    intro pt
    have h1 := recordTransition_config pt x.1 x.2
    have h2 := ih (pt.recordTransition x.1 x.2)
    exact ⟨h2.1.trans h1.1, h2.2.trans h1.2⟩

theorem recordSequence_config (pt : PatternTable) (pages : List Int) :
    (pt.recordSequence pages).confidenceThreshold = pt.confidenceThreshold
    ∧ (pt.recordSequence pages).maxPredictions = pt.maxPredictions := by
  rw [PatternTable.recordSequence]
  split
  · exact ⟨rfl, rfl⟩
  · exact foldl_record_config _ pt

theorem updatePattern_config (pt : PatternTable) (f t c : Int) :
    (pt.updatePattern f t c).confidenceThreshold = pt.confidenceThreshold
    ∧ (pt.updatePattern f t c).maxPredictions = pt.maxPredictions := by
  rw [PatternTable.updatePattern]
  split <;> exact ⟨rfl, rfl⟩

theorem decay_config (pt : PatternTable) (f : Rat) :
    (pt.decay f).confidenceThreshold = pt.confidenceThreshold
    ∧ (pt.decay f).maxPredictions = pt.maxPredictions := by
  rw [PatternTable.decay]
  split <;> exact ⟨rfl, rfl⟩

theorem getPredictions_config (pt : PatternTable) (p : Int) :
    ((pt.getPredictions p).2.confidenceThreshold = pt.confidenceThreshold)
    ∧ ((pt.getPredictions p).2.maxPredictions = pt.maxPredictions) := by
  rw [PatternTable.getPredictions]
  by_cases hv : isValidPage p = false
  · simp [if_pos hv]
  · simp only [if_neg hv]
    cases hfind : mapFind? p pt.predictions with
    | some cached => simp [hfind]
    | none => simp [hfind]

theorem apply_config (op : PTOp) (pt : PatternTable) :
    ((op.apply pt).confidenceThreshold = pt.confidenceThreshold)
    ∧ ((op.apply pt).maxPredictions = pt.maxPredictions) := by
  cases op with
  | record f t => exact recordTransition_config pt f t
  | seq pages => exact recordSequence_config pt pages
  | update f t c => exact updatePattern_config pt f t c
  | compactOp m => exact ⟨rfl, rfl⟩
  | clearOp => exact ⟨rfl, rfl⟩
  | clearCacheOp => exact ⟨rfl, rfl⟩
  | decayOp f => exact decay_config pt f
  | query p => exact getPredictions_config pt p
  | setLearning b => exact ⟨rfl, rfl⟩

theorem runOps_config_aux (ops : List PTOp) : ∀ pt : PatternTable,
    ((runOps pt ops).confidenceThreshold = pt.confidenceThreshold)
    ∧ ((runOps pt ops).maxPredictions = pt.maxPredictions) := by
  induction ops with
  | nil => intro pt; exact ⟨rfl, rfl⟩
  | cons op rest ih =>
    intro pt
    have h1 := apply_config op pt
    have h2 := ih (op.apply pt)
    exact ⟨h2.1.trans h1.1, h2.2.trans h1.2⟩

theorem runOps_config (threshold : Rat) (maxPred : Int) (ops : List PTOp) :
    ((runOps (PatternTable.init threshold maxPred) ops).confidenceThreshold = threshold)
    ∧ ((runOps (PatternTable.init threshold maxPred) ops).maxPredictions = maxPred) :=
  runOps_config_aux ops (PatternTable.init threshold maxPred)

/-! ## Specification of getPredictions on well-formed states -/

theorem getPredictions_fst (pt : PatternTable) (p : Int) (h : PTInv pt) :
    (pt.getPredictions p).1 = [] ∨ (pt.getPredictions p).1 = pt.computePredictions p := by
  rw [PatternTable.getPredictions]
  by_cases hv : isValidPage p = false
  · simp only [if_pos hv]
    exact Or.inl (by simp)
  · simp only [if_neg hv]
    cases hfind : mapFind? p pt.predictions with
    | some cached =>
      simp only [hfind]
      exact Or.inr (by simpa using h.2.2 p cached hfind)
    | none =>
      simp only [hfind]
      exact Or.inr (by simp)

theorem computePredictions_spec (pt : PatternTable) (p : Int) (hwf : transWF pt) :
    (pt.computePredictions p).length ≤ sizeTCast pt.maxPredictions
    ∧ (∀ q ∈ pt.computePredictions p,
        pt.confidenceThreshold ≤ pt.getTransitionProbability p q)
    ∧ (pt.computePredictions p).Pairwise
        (fun a b => pt.getTransitionProbability p b ≤ pt.getTransitionProbability p a) := by
  rw [PatternTable.computePredictions, selectPredictions_eq]
  have hsubl : (((pt.calculateProbabilities p).filter
        (fun pr => decide (pt.confidenceThreshold ≤ pr.2))).take
        (sizeTCast pt.maxPredictions)).Sublist (pt.calculateProbabilities p) :=
    (List.take_sublist _ _).trans (List.filter_sublist _)
  refine ⟨?_, ?_, ?_⟩
  · rw [List.length_map]
    exact List.length_take_le _ _
  · intro q hq
    rcases List.mem_map.mp hq with ⟨pr, hpr, hpr1⟩
    have hprf := List.mem_of_mem_take hpr
    have hthr : pt.confidenceThreshold ≤ pr.2 :=
      of_decide_eq_true (List.mem_filter.mp hprf).2
    have hmem : pr ∈ pt.calculateProbabilities p := hsubl.mem hpr
    rw [← hpr1, calculateProbabilities_TP pt p hwf pr hmem]
    exact hthr
  · have hpw := List.Pairwise.sublist hsubl (calculateProbabilities_sorted pt p)
    rw [List.pairwise_map]
    refine List.Pairwise.imp_of_mem ?_ hpw
    intro a b ha hb hab
    rw [calculateProbabilities_TP pt p hwf a (hsubl.mem ha),
      calculateProbabilities_TP pt p hwf b (hsubl.mem hb)]
    exact hab

theorem getPredictions_spec (pt : PatternTable) (p : Int) (h : PTInv pt)
    (hm0 : 0 ≤ pt.maxPredictions) (hm1 : pt.maxPredictions < 18446744073709551616) :
    (((pt.getPredictions p).1.length : Int) ≤ pt.maxPredictions)
    ∧ (∀ q ∈ (pt.getPredictions p).1,
        pt.confidenceThreshold ≤ pt.getTransitionProbability p q)
    ∧ (pt.getPredictions p).1.Pairwise
        (fun a b => pt.getTransitionProbability p b ≤ pt.getTransitionProbability p a) := by
  rcases getPredictions_fst pt p h with hres | hres <;> rw [hres]
  · refine ⟨by simpa using hm0, ?_, ?_⟩
    · intro q hq
      simp at hq
    · simp
  · have hs := computePredictions_spec pt p h.1
    refine ⟨?_, hs.2.1, hs.2.2⟩
    have hlen := hs.1
    rw [sizeTCast_eq hm0 hm1] at hlen
    have h2 : ((pt.computePredictions p).length : Int) ≤ (pt.maxPredictions.toNat : Int) := by
      exact_mod_cast hlen
    rwa [Int.toNat_of_nonneg hm0] at h2

/-! ## Claim C5 -/

/-- C5: on every PatternTable state reachable from a fresh table by the
public learning, maintenance and query operations (configuration fixed at
construction with maxPredictions in the range of C++ int), getPredictions
returns at most maxPredictions pages, every returned page has transition
probability from the queried page at least confidenceThreshold, and the
returned list is sorted in descending order of that probability. -/
theorem prediction_bound (threshold : Rat) (maxPred : Int) (ops : List PTOp) (p : Int)
    (hm0 : 0 ≤ maxPred) (hm1 : maxPred < 18446744073709551616) :
    ((((runOps (PatternTable.init threshold maxPred) ops).getPredictions p).1.length : Int)
        ≤ maxPred)
    ∧ (∀ q ∈ ((runOps (PatternTable.init threshold maxPred) ops).getPredictions p).1,
        threshold ≤
          (runOps (PatternTable.init threshold maxPred) ops).getTransitionProbability p q)
    ∧ ((runOps (PatternTable.init threshold maxPred) ops).getPredictions p).1.Pairwise
        (fun a b =>
          (runOps (PatternTable.init threshold maxPred) ops).getTransitionProbability p b ≤
            (runOps (PatternTable.init threshold maxPred) ops).getTransitionProbability p a) := by
  have hcfg := runOps_config threshold maxPred ops
  have h := getPredictions_spec (runOps (PatternTable.init threshold maxPred) ops) p
    (PTInv_runOps threshold maxPred ops) (by rw [hcfg.2]; exact hm0)
    (by rw [hcfg.2]; exact hm1)
  rw [hcfg.1, hcfg.2] at h
  exact h

/-- Witness for C5 with one recorded transition and a query. -/
theorem prediction_bound_witness :
    (0 : Int) ≤ 5
    ∧ (((runOps (PatternTable.init (3 / 5) 5) [PTOp.record 0 1]).getPredictions 0).1.length :
        Int) ≤ 5 :=
  ⟨by norm_num,
    (prediction_bound (3 / 5) 5 [PTOp.record 0 1] 0 (by norm_num) (by norm_num)).1⟩

/-! ## Claim C9 -/

theorem sum_filter_partition (p : (Int × Int) × Int → Bool) (l : List ((Int × Int) × Int)) :
    ((l.filter p).map (fun e => e.2)).sum + ((l.filter (fun e => !p e)).map (fun e => e.2)).sum
      = (l.map (fun e => e.2)).sum := by
  induction l with
  | nil => simp
  | cons x rest ih =>
    by_cases hx : p x = true
    · rw [List.filter_cons, if_pos hx, List.filter_cons, if_neg (by simp [hx])]
      simp only [List.map_cons, List.sum_cons]
      omega
    · rw [List.filter_cons, if_neg (by simpa using hx), List.filter_cons,
        if_pos (by simpa using hx)]
      simp only [List.map_cons, List.sum_cons]
      omega

theorem recordTransition_sum (pt : PatternTable) (f t : Int)
    (h : pt.totalTransitions = (pt.transitions.map (fun e => e.2)).sum) :
    (pt.recordTransition f t).totalTransitions
      = ((pt.recordTransition f t).transitions.map (fun e => e.2)).sum := by
  rw [PatternTable.recordTransition]
  split
  · exact h
  · show pt.totalTransitions + 1 = ((mapAdd (f, t) 1 pt.transitions).map (fun e => e.2)).sum
    rw [mapAdd_snd_sum, ← h]

theorem foldl_record_sum (l : List (Int × Int)) : ∀ pt : PatternTable,
    pt.totalTransitions = (pt.transitions.map (fun e => e.2)).sum →
      (l.foldl (fun s x => s.recordTransition x.1 x.2) pt).totalTransitions
        = ((l.foldl (fun s x => s.recordTransition x.1 x.2) pt).transitions.map
            (fun e => e.2)).sum := by
  induction l with
  | nil => intro pt h; exact h
  | cons x rest ih => intro pt h; exact ih _ (recordTransition_sum pt x.1 x.2 h)

theorem recordSequence_sum (pt : PatternTable) (pages : List Int)
    (h : pt.totalTransitions = (pt.transitions.map (fun e => e.2)).sum) :
    (pt.recordSequence pages).totalTransitions
      = ((pt.recordSequence pages).transitions.map (fun e => e.2)).sum := by
  rw [PatternTable.recordSequence]
  split
  · exact h
  · exact foldl_record_sum _ pt h

theorem updatePattern_sum (pt : PatternTable) (f t c : Int)
    (h : pt.totalTransitions = (pt.transitions.map (fun e => e.2)).sum) :
    (pt.updatePattern f t c).totalTransitions
      = ((pt.updatePattern f t c).transitions.map (fun e => e.2)).sum := by
  rw [PatternTable.updatePattern]
  split
  · exact h
  · show pt.totalTransitions + c = ((mapAdd (f, t) c pt.transitions).map (fun e => e.2)).sum
    rw [mapAdd_snd_sum, ← h]

theorem compact_sum (pt : PatternTable) (m : Int)
    (h : pt.totalTransitions = (pt.transitions.map (fun e => e.2)).sum) :
    (pt.compact m).totalTransitions
      = ((pt.compact m).transitions.map (fun e => e.2)).sum := by
  show pt.totalTransitions -
      ((pt.transitions.filter (fun e => decide (e.2 < m))).map (fun e => e.2)).sum
    = ((pt.transitions.filter (fun e => !decide (e.2 < m))).map (fun e => e.2)).sum
  have hp := sum_filter_partition (fun e => decide (e.2 < m)) pt.transitions
  omega

theorem getPredictions_counts (pt : PatternTable) (p : Int) :
    ((pt.getPredictions p).2.totalTransitions = pt.totalTransitions)
    ∧ ((pt.getPredictions p).2.transitions = pt.transitions) := by
  rw [PatternTable.getPredictions]
  by_cases hv : isValidPage p = false
  · simp [if_pos hv]
  · simp only [if_neg hv]
    cases hfind : mapFind? p pt.predictions with
    | some cached => simp [hfind]
    | none => simp [hfind]

theorem apply_sum (op : PTOp) (hop : op.isDecay = false) (pt : PatternTable)
    (h : pt.totalTransitions = (pt.transitions.map (fun e => e.2)).sum) :
    (op.apply pt).totalTransitions = ((op.apply pt).transitions.map (fun e => e.2)).sum := by
  cases op with
  | record f t => exact recordTransition_sum pt f t h
  | seq pages => exact recordSequence_sum pt pages h
  | update f t c => exact updatePattern_sum pt f t c h
  | compactOp m => exact compact_sum pt m h
  | clearOp => simp [PTOp.apply, PatternTable.clear]
  | clearCacheOp => exact h
  | decayOp f => simp [PTOp.isDecay] at hop
  | query p =>
    have hc := getPredictions_counts pt p
    show (pt.getPredictions p).2.totalTransitions
      = ((pt.getPredictions p).2.transitions.map (fun e => e.2)).sum
    rw [hc.1, hc.2]
    exact h
  | setLearning b => exact h

theorem runOps_sum_aux : ∀ (ops : List PTOp), (∀ op ∈ ops, op.isDecay = false) →
    ∀ pt : PatternTable, pt.totalTransitions = (pt.transitions.map (fun e => e.2)).sum →
      (runOps pt ops).totalTransitions
        = ((runOps pt ops).transitions.map (fun e => e.2)).sum := by
  intro ops
  induction ops with
  | nil => intro _ pt h; exact h
  | cons op rest ih =>
    intro hops pt h
    exact ih (fun o ho => hops o (List.mem_cons_of_mem op ho)) _
      (apply_sum op (hops op (List.mem_cons_self op rest)) pt h)

/-- C9: after any sequence of operations that does not include decay, the
running total getTotalTransitions equals the sum of getTransitionCount
over all stored transitions. -/
theorem total_equals_count_sum (threshold : Rat) (maxPred : Int) (ops : List PTOp)
    (hops : ∀ op ∈ ops, op.isDecay = false) :
    (runOps (PatternTable.init threshold maxPred) ops).totalTransitions
      = ((runOps (PatternTable.init threshold maxPred) ops).transitions.map
          (fun e => (runOps (PatternTable.init threshold maxPred) ops).getTransitionCount
            e.1.1 e.1.2)).sum := by
  have hnd := (PTInv_runOps threshold maxPred ops).1.1
  have hsum := runOps_sum_aux ops hops (PatternTable.init threshold maxPred)
    (by simp [PatternTable.init])
  rw [hsum]
  refine congrArg List.sum (List.map_congr_left ?_).symm
  intro e he
  rw [PatternTable.getTransitionCount, Prod.mk.eta, mapFind?_of_mem_nodup hnd
    (by rw [Prod.mk.eta]; exact he), Option.getD_some]

/-- Witness for C9 with a record followed by a compaction. -/
theorem total_equals_count_sum_witness :
    (∀ op ∈ [PTOp.record 0 1, PTOp.compactOp 2], op.isDecay = false)
    ∧ (runOps (PatternTable.init 1 5) [PTOp.record 0 1, PTOp.compactOp 2]).totalTransitions
      = ((runOps (PatternTable.init 1 5) [PTOp.record 0 1, PTOp.compactOp 2]).transitions.map
          (fun e => (runOps (PatternTable.init 1 5)
            [PTOp.record 0 1, PTOp.compactOp 2]).getTransitionCount e.1.1 e.1.2)).sum :=
  ⟨by simp [List.forall_mem_cons, PTOp.isDecay],
    total_equals_count_sum 1 5 [PTOp.record 0 1, PTOp.compactOp 2]
      (by simp [List.forall_mem_cons, PTOp.isDecay])⟩

/-! ## Lemmas about the sorted response-cache map -/

theorem cacheInsert_mem {k : Nat} {v : CacheEntry} :
    ∀ {l : List (Nat × CacheEntry)} {x : Nat × CacheEntry},
      x ∈ cacheInsert k v l → x = (k, v) ∨ x ∈ l := by
  intro l
  induction l with
  | nil =>
    intro x hx
    simp [cacheInsert] at hx
    exact Or.inl hx
  | cons e rest ih =>
    intro x hx
    rw [cacheInsert] at hx
    by_cases h1 : k < e.1
    · rw [if_pos h1] at hx
      rcases List.mem_cons.mp hx with h2 | h2
      · exact Or.inl h2
      · exact Or.inr h2
    · rw [if_neg h1] at hx
      by_cases h2 : k = e.1
      · rw [if_pos h2] at hx
        rcases List.mem_cons.mp hx with h3 | h3
        · exact Or.inl h3
        · exact Or.inr (List.mem_cons_of_mem e h3)
      · rw [if_neg h2] at hx
        rcases List.mem_cons.mp hx with h3 | h3
        · exact Or.inr (h3 ▸ List.mem_cons_self e rest)
        · rcases ih h3 with h4 | h4
          · exact Or.inl h4
          · exact Or.inr (List.mem_cons_of_mem e h4)

theorem cacheInsert_sorted (k : Nat) (v : CacheEntry) :
    ∀ {l : List (Nat × CacheEntry)}, l.Pairwise (fun a b => a.1 < b.1) →
      (cacheInsert k v l).Pairwise (fun a b => a.1 < b.1) := by
  intro l
  induction l with
  | nil =>
    intro _
    simp [cacheInsert]
  | cons e rest ih =>
    intro hs
    rw [cacheInsert]
    by_cases h1 : k < e.1
    · rw [if_pos h1]
      refine List.Pairwise.cons ?_ hs
      intro x hx
      rcases List.mem_cons.mp hx with h2 | h2
      · rw [h2]
        exact h1
      · exact Nat.lt_trans h1 (List.rel_of_pairwise_cons hs h2)
    · rw [if_neg h1]
      by_cases h2 : k = e.1
      · rw [if_pos h2]
        refine List.Pairwise.cons ?_ hs.of_cons
        intro x hx
        rw [h2]
        exact List.rel_of_pairwise_cons hs hx
      · rw [if_neg h2]
        have h3 : e.1 < k := by omega
        refine List.Pairwise.cons ?_ (ih hs.of_cons)
        intro x hx
        rcases cacheInsert_mem hx with h4 | h4
        · rw [h4]
          exact h3
        · exact List.rel_of_pairwise_cons hs h4

theorem cacheInsert_find_self (k : Nat) (v : CacheEntry) :
    ∀ l : List (Nat × CacheEntry), mapFind? k (cacheInsert k v l) = some v := by
  intro l
  induction l with
  | nil => simp [cacheInsert, mapFind?]
  | cons e rest ih =>
    rw [cacheInsert]
    by_cases h1 : k < e.1
    · rw [if_pos h1, mapFind?, if_pos rfl]
    · rw [if_neg h1]
      by_cases h2 : k = e.1
      · rw [if_pos h2, mapFind?, if_pos rfl]
      · rw [if_neg h2, mapFind?, if_neg (fun h => h2 h.symm)]
        exact ih

theorem cacheInsert_find_other (k : Nat) (v : CacheEntry) {k' : Nat} (h : k' ≠ k) :
    ∀ l : List (Nat × CacheEntry), mapFind? k' (cacheInsert k v l) = mapFind? k' l := by
  intro l
  induction l with
  | nil => simp [cacheInsert, mapFind?, Ne.symm h]
  | cons e rest ih =>
    rw [cacheInsert]
    by_cases h1 : k < e.1
    · rw [if_pos h1, mapFind?, if_neg (fun h2 : k = k' => h h2.symm)]
    · rw [if_neg h1]
      by_cases h2 : k = e.1
      · rw [if_pos h2, mapFind?, if_neg (fun h3 : k = k' => h h3.symm), mapFind?,
          if_neg (fun h3 : e.1 = k' => h (h3 ▸ h2.symm ▸ rfl))]
      · rw [if_neg h2, mapFind?, mapFind?]
        by_cases h3 : e.1 = k'
        · rw [if_pos h3, if_pos h3]
        · rw [if_neg h3, if_neg h3, ih]

theorem cacheInsert_length_le (k : Nat) (v : CacheEntry) :
    ∀ l : List (Nat × CacheEntry), (cacheInsert k v l).length ≤ l.length + 1 := by
  intro l
  induction l with
  | nil => simp [cacheInsert]
  | cons e rest ih =>
    rw [cacheInsert]
    by_cases h1 : k < e.1
    · rw [if_pos h1]
      simp
    · rw [if_neg h1]
      by_cases h2 : k = e.1
      · rw [if_pos h2]
        simp
      · rw [if_neg h2]
        simp only [List.length_cons]
        omega

theorem cacheInsert_length_new (k : Nat) (v : CacheEntry) :
    ∀ {l : List (Nat × CacheEntry)}, mapFind? k l = none →
      (cacheInsert k v l).length = l.length + 1 := by
  intro l
  induction l with
  | nil => intro _; simp [cacheInsert]
  | cons e rest ih =>
    intro hf
    rw [mapFind?] at hf
    by_cases h2 : e.1 = k
    · rw [if_pos h2] at hf
      exact absurd hf (by simp)
    · rw [if_neg h2] at hf
      rw [cacheInsert]
      by_cases h1 : k < e.1
      · rw [if_pos h1]
        simp
      · rw [if_neg h1, if_neg (fun h3 => h2 h3.symm)]
        simp only [List.length_cons]
        rw [ih hf]

theorem mapErase_length {K V : Type} [DecidableEq K] :
    ∀ {l : List (K × V)} {k : K}, k ∈ l.map Prod.fst →
      (mapErase k l).length + 1 = l.length := by
  intro l
  induction l with
  | nil => intro k hk; simp at hk
  | cons e rest ih =>
    intro k hk
    rw [mapErase]
    by_cases h : e.1 = k
    · rw [if_pos h]
      rfl
    · rw [if_neg h]
      simp only [List.map_cons, List.mem_cons] at hk
      rcases hk with h1 | h1
      · exact absurd h1.symm h
      · simp only [List.length_cons]
        rw [← ih h1]

theorem cacheWF_keys_nodup {l : List (Nat × CacheEntry)}
    (h : l.Pairwise (fun a b => a.1 < b.1)) : (l.map Prod.fst).Nodup := by
  have h2 : (l.map Prod.fst).Pairwise (fun a b : Nat => a < b) :=
    List.Pairwise.map Prod.fst (fun a b hab => hab) h
  exact h2.imp Nat.ne_of_lt

theorem length_filter_partition {α : Type} (p : α → Bool) (l : List α) :
    (l.filter p).length + (l.filter (fun a => !p a)).length = l.length := by
  induction l with
  | nil => simp
  | cons x rest ih =>
    by_cases hx : p x = true
    · rw [List.filter_cons, if_pos hx, List.filter_cons, if_neg (by simp [hx])]
      simp only [List.length_cons]
      omega
    · rw [List.filter_cons, if_neg (by simpa using hx), List.filter_cons,
        if_pos (by simpa using hx)]
      simp only [List.length_cons]
      omega

/-! ## The LRU scan of evictLeastRecentlyUsed -/

theorem lruScan_nil (b : Nat × CacheEntry) : lruScan [] b = b := rfl

theorem lruScan_cons (x : Nat × CacheEntry) (rest : List (Nat × CacheEntry))
    (b : Nat × CacheEntry) :
    lruScan (x :: rest) b
      = lruScan rest (if x.2.lastAccess < b.2.lastAccess then x else b) := rfl

theorem lruScan_basic : ∀ (l : List (Nat × CacheEntry)) (b : Nat × CacheEntry),
    (lruScan l b = b ∨ lruScan l b ∈ l)
    ∧ (lruScan l b).2.lastAccess ≤ b.2.lastAccess
    ∧ (∀ x ∈ l, (lruScan l b).2.lastAccess ≤ x.2.lastAccess)
    ∧ ((lruScan l b).2.lastAccess = b.2.lastAccess → lruScan l b = b) := by
  intro l
  induction l with
  | nil =>
    intro b
    refine ⟨Or.inl rfl, le_refl _, ?_, fun _ => rfl⟩
    intro x hx
    simp at hx
  | cons x rest ih =>
    intro b
    rw [lruScan_cons]
    by_cases hx : x.2.lastAccess < b.2.lastAccess
    · rw [if_pos hx]
      obtain ⟨hm, hle, hall, htie⟩ := ih x
      refine ⟨?_, ?_, ?_, ?_⟩
      · rcases hm with h | h
        · exact Or.inr (by rw [h]; exact List.mem_cons_self x rest)
        · exact Or.inr (List.mem_cons_of_mem x h)
      · exact le_trans hle (le_of_lt hx)
      · intro y hy
        rcases List.mem_cons.mp hy with h | h
        · rw [h]
          exact hle
        · exact hall y h
      · intro heq
        exfalso
        have h2 := lt_of_le_of_lt hle hx
        rw [heq] at h2
        exact lt_irrefl _ h2
    · rw [if_neg hx]
      obtain ⟨hm, hle, hall, htie⟩ := ih b
      refine ⟨?_, hle, ?_, htie⟩
      · rcases hm with h | h
        · exact Or.inl h
        · exact Or.inr (List.mem_cons_of_mem x h)
      · intro y hy
        rcases List.mem_cons.mp hy with h | h
        · rw [h]
          exact le_trans hle (not_lt.mp hx)
        · exact hall y h

theorem lruScan_min : ∀ (rest : List (Nat × CacheEntry)) (e : Nat × CacheEntry),
    (e :: rest).Pairwise (fun a b => a.1 < b.1) →
      lruScan (e :: rest) e ∈ e :: rest
      ∧ (∀ x ∈ e :: rest, (lruScan (e :: rest) e).2.lastAccess ≤ x.2.lastAccess)
      ∧ (∀ x ∈ e :: rest,
          x.2.lastAccess = (lruScan (e :: rest) e).2.lastAccess →
            (lruScan (e :: rest) e).1 ≤ x.1) := by
  intro rest
  induction rest with
  | nil =>
    intro e _
    rw [lruScan_cons, if_neg (lt_irrefl _), lruScan_nil]
    refine ⟨List.mem_cons_self e [], ?_, ?_⟩
    · intro x hx
      rcases List.mem_cons.mp hx with h | h
      · rw [h]
      · simp at h
    · intro x hx _
      rcases List.mem_cons.mp hx with h | h
      · rw [h]
      · simp at h
  | cons x rest2 ih =>
    intro e hs
    have hstep : lruScan (e :: x :: rest2) e = lruScan (x :: rest2) e := by
      rw [lruScan_cons, if_neg (lt_irrefl _)]
    by_cases hx : x.2.lastAccess < e.2.lastAccess
    · have hrw : lruScan (e :: x :: rest2) e = lruScan (x :: rest2) x := by
        rw [hstep, lruScan_cons, if_pos hx, lruScan_cons, if_neg (lt_irrefl _)]
      obtain ⟨hm, hall, htie⟩ := ih x hs.of_cons
      rw [hrw]
      refine ⟨List.mem_cons_of_mem e hm, ?_, ?_⟩
      · intro y hy
        rcases List.mem_cons.mp hy with h | h
        · rw [h]
          exact le_trans (hall x (List.mem_cons_self x rest2)) (le_of_lt hx)
        · exact hall y h
      · intro y hy hyla
        rcases List.mem_cons.mp hy with h | h
        · exfalso
          have h2 := lt_of_le_of_lt (hall x (List.mem_cons_self x rest2)) hx
          rw [← hyla, h] at h2
          exact lt_irrefl _ h2
        · exact htie y h hyla
    · have hrw : lruScan (e :: x :: rest2) e = lruScan (e :: rest2) e := by
        rw [hstep, lruScan_cons, if_neg hx, lruScan_cons, if_neg (lt_irrefl _)]
      have hs2 : (e :: rest2).Pairwise (fun a b => a.1 < b.1) := by
        refine List.Pairwise.cons ?_ (hs.of_cons.of_cons)
        intro y hy
        exact List.rel_of_pairwise_cons hs (List.mem_cons_of_mem x hy)
      obtain ⟨hm, hall, htie⟩ := ih e hs2
      rw [hrw]
      refine ⟨?_, ?_, ?_⟩
      · rcases List.mem_cons.mp hm with h | h
        · rw [h]
          exact List.mem_cons_self e (x :: rest2)
        · exact List.mem_cons_of_mem e (List.mem_cons_of_mem x h)
      · intro y hy
        rcases List.mem_cons.mp hy with h | h
        · rw [h]
          exact hall e (List.mem_cons_self e rest2)
        · rcases List.mem_cons.mp h with h2 | h2
          · rw [h2]
            exact le_trans (hall e (List.mem_cons_self e rest2)) (not_lt.mp hx)
          · exact hall y (List.mem_cons_of_mem e h2)
      · intro y hy hyla
        rcases List.mem_cons.mp hy with h | h
        · exact htie y (h ▸ List.mem_cons_self e rest2) hyla
        · rcases List.mem_cons.mp h with h2 | h2
          · have hbasic := lruScan_basic rest2 e
            have hscan : lruScan (e :: rest2) e = lruScan rest2 e := by
              rw [lruScan_cons, if_neg (lt_irrefl _)]
            have hle2 : (lruScan (e :: rest2) e).2.lastAccess ≤ e.2.lastAccess := by
              rw [hscan]
              exact hbasic.2.1
            have heq : (lruScan (e :: rest2) e).2.lastAccess = e.2.lastAccess := by
              have h3 : e.2.lastAccess ≤ x.2.lastAccess := not_lt.mp hx
              rw [h2] at hyla
              exact le_antisymm hle2 (by rw [← hyla]; exact h3)
            have hise : lruScan (e :: rest2) e = e := by
              rw [hscan]
              exact hbasic.2.2.2 (by rw [← hscan]; exact heq)
            rw [hise, h2]
            exact le_of_lt (List.rel_of_pairwise_cons hs (List.mem_cons_self x rest2))
          · exact htie y (List.mem_cons_of_mem e h2) hyla

/-! ## Structural properties of the cache operations -/

theorem cleanup_spec (s : ServerCache) (now : Rat) :
    (cleanupExpiredCache s now).maxCacheSize = s.maxCacheSize
    ∧ ((cleanupExpiredCache s now).responseCache.length : Int)
        - (cleanupExpiredCache s now).currentCacheSize
      = (s.responseCache.length : Int) - s.currentCacheSize
    ∧ (cleanupExpiredCache s now).responseCache.length ≤ s.responseCache.length
    ∧ (CacheWF s → CacheWF (cleanupExpiredCache s now)) := by
  refine ⟨rfl, ?_, ?_, ?_⟩
  · show ((s.responseCache.filter (fun e => !e.2.isExpired now)).length : Int)
        - (s.currentCacheSize -
          ((s.responseCache.filter (fun e => e.2.isExpired now)).length : Int))
      = (s.responseCache.length : Int) - s.currentCacheSize
    have hp := length_filter_partition (fun e => e.2.isExpired now) s.responseCache
    omega
  · exact (List.filter_sublist _).length_le
  · intro hwf
    exact List.Pairwise.sublist (List.filter_sublist _) hwf

theorem evict_empty (s : ServerCache) (h : s.responseCache = []) :
    evictLeastRecentlyUsed s = s := by
  rw [evictLeastRecentlyUsed, h]

theorem evict_spec (s : ServerCache) (hwf : CacheWF s) {e : Nat × CacheEntry}
    {rest : List (Nat × CacheEntry)} (hcs : s.responseCache = e :: rest) :
    (evictLeastRecentlyUsed s).responseCache
        = mapErase (lruScan (e :: rest) e).1 s.responseCache
    ∧ (evictLeastRecentlyUsed s).currentCacheSize = s.currentCacheSize - 1
    ∧ (evictLeastRecentlyUsed s).maxCacheSize = s.maxCacheSize
    ∧ CacheWF (evictLeastRecentlyUsed s)
    ∧ (evictLeastRecentlyUsed s).responseCache.length + 1 = s.responseCache.length := by
  have hev : evictLeastRecentlyUsed s =
      { s with
        responseCache := mapErase (lruScan (e :: rest) e).1 s.responseCache
        currentCacheSize := s.currentCacheSize - 1 } := by
    rw [evictLeastRecentlyUsed, hcs]
  rw [hev]
  have hwf2 : CacheWF s := hwf
  rw [CacheWF, hcs] at hwf2
  have hmem : lruScan (e :: rest) e ∈ e :: rest := (lruScan_min rest e hwf2).1
  have hkey : (lruScan (e :: rest) e).1 ∈ s.responseCache.map Prod.fst := by
    rw [hcs]
    exact List.mem_map.mpr ⟨lruScan (e :: rest) e, hmem, rfl⟩
  refine ⟨rfl, rfl, rfl, ?_, ?_⟩
  · exact List.Pairwise.sublist (mapErase_sublist _ _) hwf
  · exact mapErase_length hkey

theorem addToCache_inv (s : ServerCache) (k : Nat) (v : CacheEntry) (t : Rat)
    (hwf : CacheWF s)
    (hlen : (s.responseCache.length : Int) ≤ s.currentCacheSize)
    (hcap : (s.responseCache.length : Int) ≤ max s.maxCacheSize 1) :
    CacheWF (addToCacheWithManagement s k v t)
    ∧ ((addToCacheWithManagement s k v t).responseCache.length : Int)
        ≤ (addToCacheWithManagement s k v t).currentCacheSize
    ∧ ((addToCacheWithManagement s k v t).responseCache.length : Int)
        ≤ max s.maxCacheSize 1
    ∧ (addToCacheWithManagement s k v t).maxCacheSize = s.maxCacheSize := by
  have hmax1 : (1 : Int) ≤ max s.maxCacheSize 1 := le_max_right _ _
  have hmaxM : s.maxCacheSize ≤ max s.maxCacheSize 1 := le_max_left _ _
  have hfin : ∀ s1 : ServerCache, CacheWF s1 →
      (s1.responseCache.length : Int) ≤ s1.currentCacheSize →
      (s1.responseCache.length : Int) ≤ max s.maxCacheSize 1 - 1 →
      s1.maxCacheSize = s.maxCacheSize →
      CacheWF { s1 with
          responseCache := cacheInsert k v s1.responseCache
          currentCacheSize := s1.currentCacheSize + 1 }
      ∧ (((cacheInsert k v s1.responseCache).length : Int) ≤ s1.currentCacheSize + 1)
      ∧ (((cacheInsert k v s1.responseCache).length : Int) ≤ max s.maxCacheSize 1)
      ∧ ({ s1 with
            responseCache := cacheInsert k v s1.responseCache
            currentCacheSize := s1.currentCacheSize + 1 } : ServerCache).maxCacheSize
          = s.maxCacheSize := by
    intro s1 h1 h2 h3 h4
    have hle := cacheInsert_length_le k v s1.responseCache
    exact ⟨cacheInsert_sorted k v h1, by omega, by omega, h4⟩
  rw [addToCacheWithManagement]
  by_cases hc1 : s.maxCacheSize ≤ s.currentCacheSize
  · rw [if_pos hc1]
    obtain ⟨hcm, hcdiff, hclen, hcwf⟩ := cleanup_spec s t
    by_cases hc2 : (cleanupExpiredCache s t).maxCacheSize
        ≤ (cleanupExpiredCache s t).currentCacheSize
    · rw [if_pos hc2]
      rcases hemp : (cleanupExpiredCache s t).responseCache with _ | ⟨e, rest⟩
      · rw [evict_empty _ hemp]
        refine hfin _ (hcwf hwf) ?_ ?_ hcm
        · rw [hemp]
          simp only [List.length_nil, Nat.cast_zero]
          rw [hemp] at hcdiff
          simp only [List.length_nil, Nat.cast_zero] at hcdiff
          omega
        · rw [hemp]
          simp only [List.length_nil, Nat.cast_zero]
          omega
      · obtain ⟨her, heccs, hemax, hewf, helen⟩ := evict_spec _ (hcwf hwf) hemp
        refine hfin _ hewf ?_ ?_ (hemax.trans hcm)
        · rw [heccs]
          omega
        · omega
    · rw [if_neg hc2]
      rw [hcm] at hc2
      refine hfin _ (hcwf hwf) ?_ ?_ hcm
      · omega
      · omega
  · rw [if_neg hc1]
    exact hfin s hwf hlen (by omega) rfl

/-! ## Claim C1 -/

theorem insertAll_inv : ∀ (L : List (Nat × CacheEntry × Rat)) (s : ServerCache),
    CacheWF s → (s.responseCache.length : Int) ≤ s.currentCacheSize →
    (s.responseCache.length : Int) ≤ max s.maxCacheSize 1 →
    CacheWF (insertAll s L)
    ∧ ((insertAll s L).responseCache.length : Int) ≤ (insertAll s L).currentCacheSize
    ∧ ((insertAll s L).responseCache.length : Int) ≤ max s.maxCacheSize 1
    ∧ (insertAll s L).maxCacheSize = s.maxCacheSize := by
  intro L
  induction L with
  | nil =>
    intro s h1 h2 h3
    exact ⟨h1, h2, h3, rfl⟩
  | cons x rest ih =>
    intro s h1 h2 h3
    obtain ⟨ha1, ha2, ha3, ha4⟩ := addToCache_inv s x.1 x.2.1 x.2.2 h1 h2 h3
    obtain ⟨hb1, hb2, hb3, hb4⟩ := ih (addToCacheWithManagement s x.1 x.2.1 x.2.2) ha1 ha2
      (by rw [ha4]; exact ha3)
    rw [ha4] at hb3
    exact ⟨hb1, hb2, hb3, hb4.trans ha4⟩

/-- C1 amended: starting from an empty cache with configured capacity C,
after any sequence of addToCacheWithManagement calls the number of stored
entries never exceeds max C 1; in particular it never exceeds the
configured capacity whenever that capacity is at least 1.  (The code has
no special case for capacity 0, and one entry can always be stored, which
is exactly what the max with 1 accounts for.) -/
theorem cache_capacity_bound (C : Int) (L : List (Nat × CacheEntry × Rat)) :
    ((insertAll (emptyCache C) L).responseCache.length : Int) ≤ max C 1 := by
  have h0 : (0 : Int) ≤ max C 1 := le_trans zero_le_one (le_max_right C 1)
  have h := insertAll_inv L (emptyCache C) (by simp [CacheWF, emptyCache])
    (by simp [emptyCache]) (by simp [emptyCache, h0])
  exact h.2.2.1

/-- Counterexample to C1 as stated: with configured capacity 0, a single
insert still stores its entry, so the store holds one entry, which
exceeds the capacity. -/
theorem cache_capacity_counterexample :
    ¬ (((insertAll (emptyCache 0) [(0, mkEntry 0 0 0, 0)]).responseCache.length : Int)
        ≤ (emptyCache 0).maxCacheSize) := by
  decide

/-! ## Claim C7 -/

theorem capacity_zero_insert (s : ServerCache) (k : Nat) (v : CacheEntry) (t : Rat)
    (hwf : CacheWF s) (hmax : s.maxCacheSize = 0)
    (hlen : (s.responseCache.length : Int) ≤ s.currentCacheSize)
    (hone : s.responseCache.length ≤ 1) :
    (addToCacheWithManagement s k v t).responseCache = [(k, v)] := by
  rw [addToCacheWithManagement]
  have hccs : s.maxCacheSize ≤ s.currentCacheSize := by
    have h0 : (0 : Int) ≤ (s.responseCache.length : Int) := Int.ofNat_nonneg _
    omega
  rw [if_pos hccs]
  obtain ⟨hcm, hcdiff, hclen, hcwf⟩ := cleanup_spec s t
  have hc2 : (cleanupExpiredCache s t).maxCacheSize
      ≤ (cleanupExpiredCache s t).currentCacheSize := by
    have h0 : (0 : Int) ≤ ((cleanupExpiredCache s t).responseCache.length : Int) :=
      Int.ofNat_nonneg _
    omega
  rw [if_pos hc2]
  rcases hemp : (cleanupExpiredCache s t).responseCache with _ | ⟨e, rest⟩
  · rw [evict_empty _ hemp]
    show cacheInsert k v (cleanupExpiredCache s t).responseCache = [(k, v)]
    rw [hemp]
    rfl
  · obtain ⟨her, heccs, hemax, hewf, helen⟩ := evict_spec _ (hcwf hwf) hemp
    have h1 : (cleanupExpiredCache s t).responseCache.length ≤ 1 := le_trans hclen hone
    rw [hemp] at h1
    rw [hemp] at helen
    have h2 : (evictLeastRecentlyUsed (cleanupExpiredCache s t)).responseCache.length = 0 := by
      simp only [List.length_cons] at h1 helen
      omega
    have h3 : (evictLeastRecentlyUsed (cleanupExpiredCache s t)).responseCache = [] :=
      List.length_eq_zero.mp h2
    show cacheInsert k v
        (evictLeastRecentlyUsed (cleanupExpiredCache s t)).responseCache = [(k, v)]
    rw [h3]
    rfl

/-- C7 amended: the code has no capacity-0 special case; instead, with
maxCacheSize = 0 the cache behaves like a one-entry cache.  After any
sequence of inserts from empty the store holds at most one entry, a
further insert into any such reachable capacity-0 state (empty or
occupied) evicts whatever entry is present and leaves exactly the new
entry stored, so its lookup yields it, and a lookup of a freshly stored
unexpired entry is a hit.  (No operation fails: all are total
functions.) -/
theorem capacity_zero_behaves_like_one (L : List (Nat × CacheEntry × Rat)) :
    (insertAll (emptyCache 0) L).responseCache.length ≤ 1
    ∧ (∀ (k : Nat) (v : CacheEntry) (t : Rat),
        (addToCacheWithManagement (insertAll (emptyCache 0) L) k v t).responseCache
          = [(k, v)])
    ∧ (∀ (k : Nat) (v : CacheEntry) (t : Rat),
        mapFind? k (addToCacheWithManagement (insertAll (emptyCache 0) L) k v t).responseCache
          = some v)
    ∧ (∀ (k : Nat) (v : CacheEntry) (t : Rat), v.isExpired t = false →
        (checkResponseCache (addToCacheWithManagement (insertAll (emptyCache 0) L) k v t)
          k t).1 = true) := by
  obtain ⟨hwf, hlen, hcap, hmax⟩ := insertAll_inv L (emptyCache 0)
    (by simp [CacheWF, emptyCache]) (by simp [emptyCache]) (by simp [emptyCache])
  have hone : (insertAll (emptyCache 0) L).responseCache.length ≤ 1 := by
    have h3 : max (emptyCache 0).maxCacheSize 1 = 1 := by simp [emptyCache]
    rw [h3] at hcap
    exact_mod_cast hcap
  have hins : ∀ (k : Nat) (v : CacheEntry) (t : Rat),
      (addToCacheWithManagement (insertAll (emptyCache 0) L) k v t).responseCache
        = [(k, v)] :=
    fun k v t => capacity_zero_insert _ k v t hwf (by rw [hmax]; rfl) hlen hone
  have hfind : ∀ (k : Nat) (v : CacheEntry) (t : Rat),
      mapFind? k (addToCacheWithManagement (insertAll (emptyCache 0) L) k v t).responseCache
        = some v := by
    intro k v t
    rw [hins k v t, mapFind?, if_pos rfl]
  refine ⟨hone, hins, hfind, ?_⟩
  intro k v t hv
  rw [checkResponseCache]
  simp only [hfind k v t, hv]
  simp

/-- Counterexample to C7 as stated: with capacity 0 an insert is not a
no-op (one entry is stored) and the following lookup of that page is a
hit, not a miss. -/
theorem capacity_zero_counterexample :
    (addToCacheWithManagement (emptyCache 0) 0 (mkEntry 0 0 0) 0).responseCache.length = 1
    ∧ (checkResponseCache (addToCacheWithManagement (emptyCache 0) 0 (mkEntry 0 0 0) 0)
        0 0).1 = true := by
  decide

/-- Witness for C7 amended on an occupied capacity-0 cache: key 1 was
inserted first, then inserting key 0 evicts it and stores exactly the new
entry, whose lookup hits. -/
theorem capacity_zero_witness :
    (addToCacheWithManagement (insertAll (emptyCache 0) [(1, mkEntry 0 0 1, 0)])
        0 (mkEntry 0 0 0) 0).responseCache = [(0, mkEntry 0 0 0)]
    ∧ (checkResponseCache (addToCacheWithManagement
        (insertAll (emptyCache 0) [(1, mkEntry 0 0 1, 0)]) 0 (mkEntry 0 0 0) 0) 0 0).1
      = true :=
  ⟨(capacity_zero_behaves_like_one [(1, mkEntry 0 0 1, 0)]).2.1 0 (mkEntry 0 0 0) 0,
    (capacity_zero_behaves_like_one [(1, mkEntry 0 0 1, 0)]).2.2.2 0 (mkEntry 0 0 0) 0
      (by decide)⟩

/-! ## Claim C4 -/

/-- C4: for an entry present under a page key with creation timestamp t0
and ttl d, a lookup probe at any time in the window t0 ≤ t < t0 + d is a
hit when d > 0; a probe at any time t ≥ t0 + d is a miss that also
removes the entry from the store; and an entry with d ≤ 0 is never
treated as expired by lookup: its probe is a hit at every time. -/
theorem expiry_correctness (s : ServerCache) (page : Nat) (e : CacheEntry) (t : Rat)
    (hwf : CacheWF s) (hfind : mapFind? page s.responseCache = some e) :
    (0 < e.ttl → e.timestamp ≤ t → t < e.timestamp + (e.ttl : Rat) →
      (checkResponseCache s page t).1 = true)
    ∧ (0 < e.ttl → e.timestamp + (e.ttl : Rat) ≤ t →
      (checkResponseCache s page t).1 = false
      ∧ mapFind? page (checkResponseCache s page t).2.responseCache = none)
    ∧ (e.ttl ≤ 0 → (checkResponseCache s page t).1 = true) := by
  refine ⟨?_, ?_, ?_⟩
  · intro hd ht1 ht2
    have hne : e.isExpired t = false := by
      rw [CacheEntry.isExpired, if_neg (by omega)]
      simp only [decide_eq_false_iff_not, not_le]
      exact ht2
    rw [checkResponseCache]
    simp only [hfind, hne]
    simp
  · intro hd ht1
    have hex : e.isExpired t = true := by
      rw [CacheEntry.isExpired, if_neg (by omega)]
      simp only [decide_eq_true_iff]
      exact ht1
    constructor
    · rw [checkResponseCache]
      simp only [hfind, hex]
      simp
    · rw [checkResponseCache]
      simp only [hfind, hex]
      simp only [Bool.true_eq_false, if_false]
      exact mapErase_self_find (cacheWF_keys_nodup hwf)
  · intro hd
    have hne : e.isExpired t = false := by
      rw [CacheEntry.isExpired, if_pos hd]
    rw [checkResponseCache]
    simp only [hfind, hne]
    simp

/-- Witness for C4: the scenario entry inserted at time 0 with ttl 5 is a
miss with removal when probed at time 6. -/
theorem expiry_correctness_witness :
    (checkResponseCache cacheScenarioC 0 6).1 = false
    ∧ mapFind? 0 (checkResponseCache cacheScenarioC 0 6).2.responseCache = none :=
  (expiry_correctness cacheScenarioC 0 (mkEntry 0 5 0) 6
      (by simp [CacheWF, cacheScenarioC])
      (by rw [cacheScenarioC, mapFind?, if_pos rfl])).2.1
    (by norm_num [mkEntry])
    (by norm_num [mkEntry])

/-! ## Claim C6 -/

theorem mapFind?_mem {K V : Type} [DecidableEq K] :
    ∀ {l : List (K × V)} {k : K} {v : V}, mapFind? k l = some v → (k, v) ∈ l := by
  intro l
  induction l with
  | nil => intro k v h; exact absurd h (by simp [mapFind?])
  | cons e rest ih =>
    intro k v h
    rw [mapFind?] at h
    by_cases he : e.1 = k
    · rw [if_pos he] at h
      have h2 : e.2 = v := by injection h
      rw [← he, ← h2, Prod.mk.eta]
      exact List.mem_cons_self e rest
    · rw [if_neg he] at h
      exact List.mem_cons_of_mem e (ih h)

theorem insertAll_fill : ∀ (L : List (Nat × CacheEntry × Rat)) (s : ServerCache),
    CacheWF s →
    (s.responseCache.length : Int) = s.currentCacheSize →
    s.currentCacheSize + (L.length : Int) ≤ s.maxCacheSize →
    (L.map (fun x => x.1)).Nodup →
    (∀ x ∈ L, mapFind? x.1 s.responseCache = none) →
    CacheWF (insertAll s L)
    ∧ ((insertAll s L).responseCache.length : Int) = (insertAll s L).currentCacheSize
    ∧ (insertAll s L).currentCacheSize = s.currentCacheSize + (L.length : Int)
    ∧ (insertAll s L).maxCacheSize = s.maxCacheSize
    ∧ (∀ x ∈ L, mapFind? x.1 (insertAll s L).responseCache = some x.2.1)
    ∧ (∀ k : Nat, k ∉ L.map (fun x => x.1) →
        mapFind? k (insertAll s L).responseCache = mapFind? k s.responseCache) := by
  intro L
  induction L with
  | nil =>
    intro s h1 h2 _ _ _
    refine ⟨h1, h2, by simp [insertAll], rfl, by simp, fun k _ => rfl⟩
  | cons x rest ih =>
    intro s h1 h2 h3 h4 h5
    have hlencons : ((x :: rest).length : Int) = (rest.length : Int) + 1 := by
      simp
    have hccs : ¬ (s.maxCacheSize ≤ s.currentCacheSize) := by
      rw [hlencons] at h3
      have hlr : (0 : Int) ≤ (rest.length : Int) := Int.ofNat_nonneg _
      omega
    have hstep : addToCacheWithManagement s x.1 x.2.1 x.2.2
        = { s with
            responseCache := cacheInsert x.1 x.2.1 s.responseCache
            currentCacheSize := s.currentCacheSize + 1 } := by
      rw [addToCacheWithManagement, if_neg hccs]
    have hx0 : mapFind? x.1 s.responseCache = none := h5 x (List.mem_cons_self x rest)
    have hnd4 : (rest.map (fun y => y.1)).Nodup := by
      simp only [List.map_cons, List.nodup_cons] at h4
      exact h4.2
    have hx1notin : x.1 ∉ rest.map (fun y => y.1) := by
      simp only [List.map_cons, List.nodup_cons] at h4
      exact h4.1
    have hwf1 : CacheWF { s with
        responseCache := cacheInsert x.1 x.2.1 s.responseCache
        currentCacheSize := s.currentCacheSize + 1 } :=
      cacheInsert_sorted x.1 x.2.1 h1
    have hlen1 : ((cacheInsert x.1 x.2.1 s.responseCache).length : Int)
        = s.currentCacheSize + 1 := by
      rw [cacheInsert_length_new x.1 x.2.1 hx0]
      push_cast
      omega
    have hfind1 : ∀ y ∈ rest,
        mapFind? y.1 (cacheInsert x.1 x.2.1 s.responseCache) = none := by
      intro y hy
      have hne : y.1 ≠ x.1 := by
        intro he
        exact hx1notin (he ▸ List.mem_map.mpr ⟨y, hy, rfl⟩)
      rw [cacheInsert_find_other x.1 x.2.1 hne]
      exact h5 y (List.mem_cons_of_mem x hy)
    have h3r : s.currentCacheSize + 1 + (rest.length : Int) ≤ s.maxCacheSize := by
      rw [hlencons] at h3
      omega
    obtain ⟨hb1, hb2, hb3, hb4, hb5, hb6⟩ := ih
      { s with
        responseCache := cacheInsert x.1 x.2.1 s.responseCache
        currentCacheSize := s.currentCacheSize + 1 }
      hwf1 hlen1 h3r hnd4 hfind1
    have hrunfold : insertAll s (x :: rest)
        = insertAll { s with
            responseCache := cacheInsert x.1 x.2.1 s.responseCache
            currentCacheSize := s.currentCacheSize + 1 } rest := by
      show insertAll (addToCacheWithManagement s x.1 x.2.1 x.2.2) rest = _
      rw [hstep]
    rw [hrunfold]
    refine ⟨hb1, hb2, ?_, hb4, ?_, ?_⟩
    · rw [hb3, hlencons]
      show s.currentCacheSize + 1 + (rest.length : Int) = s.currentCacheSize + ((rest.length : Int) + 1)
      omega
    · intro y hy
      rcases List.mem_cons.mp hy with h | h
      · rw [h]
        rw [hb6 x.1 hx1notin]
        show mapFind? x.1 (cacheInsert x.1 x.2.1 s.responseCache) = some x.2.1
        exact cacheInsert_find_self x.1 x.2.1 s.responseCache
      · exact hb5 y h
    · intro k hk
      simp only [List.map_cons, List.mem_cons, not_or] at hk
      rw [hb6 k (by simpa using hk.2)]
      show mapFind? k (cacheInsert x.1 x.2.1 s.responseCache) = mapFind? k s.responseCache
      exact cacheInsert_find_other x.1 x.2.1 hk.1 s.responseCache

/-- C6 amended: when eviction runs, the removed entry is one with the
smallest lastAccess, and a lastAccess tie is broken by the smallest key
in map iteration order, not by the creation timestamp; consequently with
capacity N, inserting N+1 distinct keys whose entries carry strictly
increasing lastAccess values (none of them expired at the final insert)
evicts exactly the first-inserted key: afterwards the first key is gone
while every later key and the new key are still stored. -/
theorem lru_eviction_order :
    (∀ (s : ServerCache) (e : Nat × CacheEntry) (rest : List (Nat × CacheEntry)),
        CacheWF s → s.responseCache = e :: rest →
        ∃ victim, victim ∈ s.responseCache
          ∧ (∀ x ∈ s.responseCache, victim.2.lastAccess ≤ x.2.lastAccess)
          ∧ (∀ x ∈ s.responseCache, x.2.lastAccess = victim.2.lastAccess → victim.1 ≤ x.1)
          ∧ (evictLeastRecentlyUsed s).responseCache = mapErase victim.1 s.responseCache
          ∧ (evictLeastRecentlyUsed s).currentCacheSize = s.currentCacheSize - 1)
    ∧ (∀ (x0 : Nat × CacheEntry × Rat) (L1 : List (Nat × CacheEntry × Rat))
        (k : Nat) (v : CacheEntry) (t : Rat),
        ((x0 :: L1).map (fun x => x.1)).Nodup →
        k ∉ (x0 :: L1).map (fun x => x.1) →
        (x0 :: L1).Pairwise (fun a b => a.2.1.lastAccess < b.2.1.lastAccess) →
        (∀ x ∈ x0 :: L1, x.2.1.isExpired t = false) →
        mapFind? x0.1 (addToCacheWithManagement
            (insertAll (emptyCache (((x0 :: L1).length : Nat) : Int)) (x0 :: L1))
            k v t).responseCache = none
        ∧ (∀ y ∈ L1, mapFind? y.1 (addToCacheWithManagement
            (insertAll (emptyCache (((x0 :: L1).length : Nat) : Int)) (x0 :: L1))
            k v t).responseCache = some y.2.1)
        ∧ mapFind? k (addToCacheWithManagement
            (insertAll (emptyCache (((x0 :: L1).length : Nat) : Int)) (x0 :: L1))
            k v t).responseCache = some v) := by
  constructor
  · intro s e rest hwf hcs
    have hwf1 : s.responseCache.Pairwise (fun a b => a.1 < b.1) := hwf
    have hwf2 : (e :: rest).Pairwise (fun a b => a.1 < b.1) := by
      rw [hcs] at hwf1
      exact hwf1
    obtain ⟨hm, hall, htie⟩ := lruScan_min rest e hwf2
    obtain ⟨her, hccs, _, _, _⟩ := evict_spec s hwf hcs
    refine ⟨lruScan (e :: rest) e, by rw [hcs]; exact hm, ?_, ?_, her, hccs⟩
    · intro x hx
      rw [hcs] at hx
      exact hall x hx
    · intro x hx
      rw [hcs] at hx
      exact htie x hx
  · intro x0 L1 k v t hnd hkf hla hexp
    obtain ⟨hswf, hslen, hsccs, hsmax, hsfind, hspres⟩ :=
      insertAll_fill (x0 :: L1) (emptyCache (((x0 :: L1).length : Nat) : Int))
        (by simp [CacheWF, emptyCache])
        (by simp [emptyCache])
        (by simp [emptyCache])
        hnd (fun x _ => rfl)
    have hmemL : ∀ y ∈ (insertAll (emptyCache (((x0 :: L1).length : Nat) : Int))
        (x0 :: L1)).responseCache, ∃ z ∈ x0 :: L1, y = (z.1, z.2.1) := by
      intro y hy
      have hyf : mapFind? y.1 (insertAll (emptyCache (((x0 :: L1).length : Nat) : Int))
          (x0 :: L1)).responseCache = some y.2 :=
        mapFind?_of_mem_nodup (cacheWF_keys_nodup hswf) (by rw [Prod.mk.eta]; exact hy)
      by_cases hk : y.1 ∈ (x0 :: L1).map (fun x => x.1)
      · rcases List.mem_map.mp hk with ⟨z, hz, hz1⟩
        have hfz := hsfind z hz
        rw [hz1] at hfz
        have h4 : y.2 = z.2.1 := by injection hyf.symm.trans hfz
        refine ⟨z, hz, ?_⟩
        rw [hz1, ← h4]
      · exfalso
        have hp := hspres y.1 hk
        rw [hyf] at hp
        simp [emptyCache, mapFind?] at hp
    have hfresh : ∀ y ∈ (insertAll (emptyCache (((x0 :: L1).length : Nat) : Int))
        (x0 :: L1)).responseCache, y.2.isExpired t = false := by
      intro y hy
      obtain ⟨z, hz, hyz⟩ := hmemL y hy
      rw [hyz]
      exact hexp z hz
    have hcl : cleanupExpiredCache (insertAll (emptyCache (((x0 :: L1).length : Nat) : Int))
        (x0 :: L1)) t = insertAll (emptyCache (((x0 :: L1).length : Nat) : Int)) (x0 :: L1) := by
      rw [cleanupExpiredCache]
      have hf1 : (insertAll (emptyCache (((x0 :: L1).length : Nat) : Int))
          (x0 :: L1)).responseCache.filter (fun e => !e.2.isExpired t)
          = (insertAll (emptyCache (((x0 :: L1).length : Nat) : Int))
              (x0 :: L1)).responseCache :=
        List.filter_eq_self.mpr (fun a ha => by rw [hfresh a ha]; rfl)
      have hf2 : (insertAll (emptyCache (((x0 :: L1).length : Nat) : Int))
          (x0 :: L1)).responseCache.filter (fun e => e.2.isExpired t) = [] :=
        List.filter_eq_nil_iff.mpr (fun a ha => by simp [hfresh a ha])
      rw [hf1, hf2]
      simp
    have hcap : (insertAll (emptyCache (((x0 :: L1).length : Nat) : Int))
        (x0 :: L1)).maxCacheSize ≤ (insertAll (emptyCache (((x0 :: L1).length : Nat) : Int))
        (x0 :: L1)).currentCacheSize := by
      rw [hsccs, hsmax]
      simp [emptyCache]
    have hlenpos : (insertAll (emptyCache (((x0 :: L1).length : Nat) : Int))
        (x0 :: L1)).responseCache ≠ [] := by
      intro hnil
      rw [hnil] at hslen
      rw [hsccs] at hslen
      simp [emptyCache] at hslen
      omega
    rcases hsc : (insertAll (emptyCache (((x0 :: L1).length : Nat) : Int))
        (x0 :: L1)).responseCache with _ | ⟨e, rest⟩
    · exact absurd hsc hlenpos
    · have hwf2 : (e :: rest).Pairwise (fun a b => a.1 < b.1) := by
        have h1 : (insertAll (emptyCache (((x0 :: L1).length : Nat) : Int))
            (x0 :: L1)).responseCache.Pairwise (fun a b => a.1 < b.1) := hswf
        rw [hsc] at h1
        exact h1
      obtain ⟨hm, hall, htie⟩ := lruScan_min rest e hwf2
      have hvmem : lruScan (e :: rest) e ∈ (insertAll
          (emptyCache (((x0 :: L1).length : Nat) : Int)) (x0 :: L1)).responseCache := by
        rw [hsc]
        exact hm
      obtain ⟨z, hz, hvz⟩ := hmemL (lruScan (e :: rest) e) hvmem
      have hx0find := hsfind x0 (List.mem_cons_self x0 L1)
      have hx0mem : (x0.1, x0.2.1) ∈ (insertAll
          (emptyCache (((x0 :: L1).length : Nat) : Int)) (x0 :: L1)).responseCache :=
        mapFind?_mem hx0find
      have hvle : (lruScan (e :: rest) e).2.lastAccess ≤ x0.2.1.lastAccess := by
        have h2 := hall (x0.1, x0.2.1) (by rw [hsc] at hx0mem; exact hx0mem)
        exact h2
      have hzx0 : z = x0 := by
        rcases List.mem_cons.mp hz with h | h
        · exact h
        · exfalso
          have hlt : x0.2.1.lastAccess < z.2.1.lastAccess := List.rel_of_pairwise_cons hla h
          have hvla : (lruScan (e :: rest) e).2.lastAccess = z.2.1.lastAccess := by
            rw [hvz]
          rw [hvla] at hvle
          exact absurd (lt_of_le_of_lt hvle hlt) (lt_irrefl _)
      have hveq : lruScan (e :: rest) e = (x0.1, x0.2.1) := by
        rw [hvz, hzx0]
      obtain ⟨her, _, _, _, _⟩ := evict_spec _ hswf hsc
      have hins : addToCacheWithManagement (insertAll
          (emptyCache (((x0 :: L1).length : Nat) : Int)) (x0 :: L1)) k v t
          = { (evictLeastRecentlyUsed (insertAll
                (emptyCache (((x0 :: L1).length : Nat) : Int)) (x0 :: L1))) with
              responseCache := cacheInsert k v (evictLeastRecentlyUsed (insertAll
                (emptyCache (((x0 :: L1).length : Nat) : Int)) (x0 :: L1))).responseCache
              currentCacheSize := (evictLeastRecentlyUsed (insertAll
                (emptyCache (((x0 :: L1).length : Nat) : Int))
                (x0 :: L1))).currentCacheSize + 1 } := by
        rw [addToCacheWithManagement, if_pos hcap, hcl, if_pos hcap]
      have hkx0 : x0.1 ≠ k := by
        intro hh
        exact hkf (by rw [← hh]; exact List.mem_map.mpr ⟨x0, List.mem_cons_self x0 L1, rfl⟩)
      have hndkeys := cacheWF_keys_nodup hswf
      refine ⟨?_, ?_, ?_⟩
      · rw [hins]
        show mapFind? x0.1 (cacheInsert k v (evictLeastRecentlyUsed (insertAll
            (emptyCache (((x0 :: L1).length : Nat) : Int)) (x0 :: L1))).responseCache) = none
        rw [cacheInsert_find_other k v hkx0, her, hveq]
        exact mapErase_self_find hndkeys
      · intro y hy
        have hyk : y.1 ≠ k := by
          intro hh
          exact hkf (by rw [← hh]
                        exact List.mem_map.mpr ⟨y, List.mem_cons_of_mem x0 hy, rfl⟩)
        have hyx0 : y.1 ≠ (lruScan (e :: rest) e).1 := by
          rw [hveq]
          intro hh
          simp only [List.map_cons, List.nodup_cons] at hnd
          exact hnd.1 (hh ▸ List.mem_map.mpr ⟨y, hy, rfl⟩)
        rw [hins]
        show mapFind? y.1 (cacheInsert k v (evictLeastRecentlyUsed (insertAll
            (emptyCache (((x0 :: L1).length : Nat) : Int)) (x0 :: L1))).responseCache)
          = some y.2.1
        rw [cacheInsert_find_other k v hyk, her, mapErase_other_find _ hyx0]
        exact hsfind y (List.mem_cons_of_mem x0 hy)
      · rw [hins]
        show mapFind? k (cacheInsert k v (evictLeastRecentlyUsed (insertAll
            (emptyCache (((x0 :: L1).length : Nat) : Int)) (x0 :: L1))).responseCache)
          = some v
        exact cacheInsert_find_self k v _

/-- Counterexample to C6 as stated: capacity 2, keys 1, 0, 2 inserted in
that order with equal lastAccess values and no lookups.  The claim says
the first-inserted key 1 is evicted; the code instead evicts key 0, the
smallest key among the lastAccess ties in map iteration order, and key 1
stays cached. -/
theorem lru_eviction_counterexample :
    mapFind? 1 (insertAll (emptyCache 2)
      [(1, mkEntry 0 0 0, 0), (0, mkEntry 0 0 0, 0), (2, mkEntry 0 0 0, 0)]).responseCache
      = some (mkEntry 0 0 0)
    ∧ mapFind? 0 (insertAll (emptyCache 2)
      [(1, mkEntry 0 0 0, 0), (0, mkEntry 0 0 0, 0), (2, mkEntry 0 0 0, 0)]).responseCache
      = none := by
  decide

/-- Witness for C6 amended: two entries with increasing lastAccess, then
a third insert; the first key is evicted. -/
theorem lru_eviction_order_witness :
    (([((0 : Nat), mkEntry 0 0 0, (0 : Rat)),
        ((1 : Nat), mkEntry 1 0 1, (1 : Rat))].map (fun x => x.1)).Nodup)
    ∧ mapFind? 0 (addToCacheWithManagement
        (insertAll
          (emptyCache (([((0 : Nat), mkEntry 0 0 0, (0 : Rat)),
            ((1 : Nat), mkEntry 1 0 1, (1 : Rat))].length : Nat) : Int))
          [((0 : Nat), mkEntry 0 0 0, (0 : Rat)), ((1 : Nat), mkEntry 1 0 1, (1 : Rat))])
        2 (mkEntry 2 0 2) 2).responseCache = none :=
  ⟨by decide,
    (lru_eviction_order.2 ((0 : Nat), mkEntry 0 0 0, (0 : Rat))
      [((1 : Nat), mkEntry 1 0 1, (1 : Rat))] 2 (mkEntry 2 0 2) 2
      (by decide) (by decide) (by decide) (by decide)).1⟩
